import Mathlib

/-!
A verification development for the browser-side biblical-genealogy viewer
(`app.js`, the upgraded autocomplete script).  The development has two layers:

* a **record layer**: `Person` models the canonical person records that the
  search / traversal functions (`findPerson`, `fuzzyFind`, `getAncestors`,
  `getDescendants`, `initializeTree`, `jumpToPerson`) read from the
  id-keyed map `genealogyData`, which is modelled as an insertion-ordered
  association list;
* a **raw-JSON layer**: `JVal` models the raw dataset that the normalizer
  `flattenEntries` walks (objects, arrays, strings, null — the shapes the
  code distinguishes with `typeof` and `Array.isArray`), so that the
  normalizer's field defaulting, dual-key indexing and idempotence can be
  stated about arbitrary inputs.

Strings are modelled as `List Char` (`Str`), covering the ASCII fragment:
the character-class tables (`isPunctSym` for the regex class `[\p{P}\p{S}]`,
`isSpaceCh` for `\s`, case mapping for `toLowerCase`/`toUpperCase`) are the
exact ASCII portions of the Unicode classes the code uses.  JavaScript
recursion that relies on a mutated `seen` set for termination is modelled by
explicit state passing plus a fuel argument; the exported wrappers use a fuel
bound that dominates the recursion depth (at most one new id is marked seen
per nesting level), and the cycle theorems show the computed value is stable
in the fuel.
-/

/-- Strings of the model: lists of characters. -/
abbrev Str := List Char

/-- ASCII lower-casing, the ASCII fragment of `String.prototype.toLowerCase`. -/
def jsToLower (c : Char) : Char :=
  if 'A' ≤ c ∧ c ≤ 'Z' then Char.ofNat (c.toNat + 32) else c

/-- ASCII upper-casing, the ASCII fragment of `String.prototype.toUpperCase`. -/
def jsToUpper (c : Char) : Char :=
  if 'a' ≤ c ∧ c ≤ 'z' then Char.ofNat (c.toNat - 32) else c

/-- The ASCII members of the regex class `[\p{P}\p{S}]` (punctuation and
symbols) that `normalizeText` strips: the four ASCII blocks of
non-alphanumeric printable characters. -/
def isPunctSym (c : Char) : Bool :=
  (33 ≤ c.toNat ∧ c.toNat ≤ 47) ∨ (58 ≤ c.toNat ∧ c.toNat ≤ 64) ∨
  (91 ≤ c.toNat ∧ c.toNat ≤ 96) ∨ (123 ≤ c.toNat ∧ c.toNat ≤ 126)

/-- The ASCII members of the regex class `\s`: space, tab, newline, vertical
tab, form feed, carriage return. -/
def isSpaceCh (c : Char) : Bool :=
  c.toNat = 32 ∨ c.toNat = 9 ∨ c.toNat = 10 ∨ c.toNat = 11 ∨ c.toNat = 12 ∨ c.toNat = 13

/-- `String.prototype.trim`: drop whitespace from both ends. -/
def jsTrim (s : Str) : Str :=
  ((s.dropWhile isSpaceCh).reverse.dropWhile isSpaceCh).reverse

/-- The regex replacement `.replace(/\s+/g, " ")`: every maximal run of
whitespace characters becomes one space. -/
def collapseWS : Str → Str
  | [] => []
  | c :: rest =>
    let r := collapseWS rest
    if isSpaceCh c then
      match r with
      | ' ' :: _ => r
      | _ => ' ' :: r
    else c :: r

/-- `normalizeText` (app.js 363-369): lower-case, strip punctuation/symbol
characters, collapse whitespace runs to single spaces, trim the ends. -/
def normalizeText (s : Str) : Str :=
  jsTrim (collapseWS ((s.map jsToLower).filter (fun c => !isPunctSym c)))

/-- `s.startsWith q` on strings: `q` is a leading piece of `s`. -/
def strStarts : Str → Str → Bool
  | _, [] => true
  | [], _ :: _ => false
  | c :: s, d :: q => c = d && strStarts s q

/-- `s.includes q` on strings: `q` occurs somewhere inside `s`. -/
def strIncl : Str → Str → Bool
  | [], q => q.isEmpty
  | c :: t, q => strStarts (c :: t) q || strIncl t q

/-- The `\b\w` capitalization pass of `prettifyKey`: upper-case each word
character that is not preceded by a word character.  The flag records whether
the previous character was a word character. -/
def capWordsFrom (prevWord : Bool) : Str → Str
  | [] => []
  | c :: t =>
    let w : Bool := ('a' ≤ c ∧ c ≤ 'z') ∨ ('A' ≤ c ∧ c ≤ 'Z') ∨ ('0' ≤ c ∧ c ≤ '9') ∨ c = '_'
    (if w ∧ !prevWord then jsToUpper c else c) :: capWordsFrom w t

/-- `prettifyKey` (app.js 333-335): underscores to spaces, then capitalize
each word's first character. -/
def prettifyKey (k : Str) : Str :=
  capWordsFrom false (k.map (fun c => if c = '_' then ' ' else c))

/-- A canonical person record, as the search and traversal functions read it:
`id`, `name`, `bio`, `scripture` strings and a `descendants` list of
child-id strings. -/
structure Person where
  id : Str
  name : Str
  bio : Str
  scripture : Str
  descendants : List Str
deriving DecidableEq

/-- The in-memory map `genealogyData`: an insertion-ordered association list
from map keys to records (JavaScript objects with non-numeric string keys
iterate in insertion order). -/
abbrev Gen := List (Str × Person)

/-- Property lookup `genealogyData[k]` (own properties). -/
def mapGet (g : Gen) (k : Str) : Option Person :=
  (g.find? (fun kv => kv.1 = k)).map (fun kv => kv.2)

/-- `Object.values(genealogyData)`, in map-iteration order. -/
def mapValues (g : Gen) : List Person :=
  g.map (fun kv => kv.2)

/-- The loop body shared by `findPerson`'s scan: the first record whose
normalized id — or, failing that, normalized name — equals the normalized
query.  The id test runs before the name test for each record in turn. -/
def findScan : List Person → Str → Option Person
  | [], _ => none
  | p :: ps, nq =>
    if normalizeText p.id = nq then some p
    else if normalizeText p.name = nq then some p
    else findScan ps nq

/-- `findPerson` (app.js 378-392): empty query gives null; then a verbatim
map-key hit on the trimmed query; then the per-record id/name scan over
`Object.values` with the normalized query. -/
def findPerson (g : Gen) (idOrName : Str) : Option Person :=
  if idOrName.isEmpty then none
  else
    let raw := jsTrim idOrName
    match mapGet g raw with
    | some p => some p
    | none => findScan (mapValues g) (normalizeText raw)

/-- The tier-1 test of `fuzzyFind`: normalized id or normalized name starts
with the normalized query. -/
def tierStart (nq : Str) (p : Person) : Bool :=
  strStarts (normalizeText p.id) nq || strStarts (normalizeText p.name) nq

/-- The tier-2 test of `fuzzyFind`: normalized id, name or bio contains the
normalized query somewhere. -/
def tierIncl (nq : Str) (p : Person) : Bool :=
  strIncl (normalizeText p.id) nq || strIncl (normalizeText p.name) nq ||
  strIncl (normalizeText p.bio) nq

/-- The loop of `fuzzyFind` (app.js 404-414): walk the records once, pushing
tier-1 hits into `starts` and tier-2 hits into `includes`, marking each
pushed record's id in `seen` so no id is pushed twice. -/
def fuzzyScan (nq : Str) : List Person → List Str → List Person × List Person
  | [], _ => ([], [])
  | p :: ps, seen =>
    let isStart := tierStart nq p
    let isIncl := !isStart && tierIncl nq p
    if isStart ∧ p.id ∉ seen then
      let r := fuzzyScan nq ps (p.id :: seen)
      (p :: r.1, r.2)
    else if isIncl ∧ p.id ∉ seen then
      let r := fuzzyScan nq ps (p.id :: seen)
      (r.1, p :: r.2)
    else fuzzyScan nq ps seen

/-- `fuzzyFind` (app.js 395-416): falsy query gives the empty list, otherwise
the tier-1 hits followed by the tier-2 hits. -/
def fuzzyFind (g : Gen) (nameLike : Str) : List Person :=
  if nameLike.isEmpty then []
  else
    let r := fuzzyScan (normalizeText nameLike) (mapValues g) []
    r.1 ++ r.2

/-- The dedupe pass both traversal functions run over their `out` list before
returning: keep each record whose id has not been kept already, preserving
order of first occurrence.  The extra `ids` argument is the mutable `Set` of
already-kept ids. -/
def dedupById : List Person → List Str → List Person
  | [], _ => []
  | p :: ps, ids =>
    if p.id ∈ ids then dedupById ps ids
    else p :: dedupById ps (p.id :: ids)

/-- `getDescendants` (app.js 695-712) with the shared mutable `seen` set made
explicit and a fuel argument standing in for the recursion JavaScript bounds
through `seen`: look the id up by map key; for each child id in order, look
the child up by map key, and when its record id is not yet seen, push it,
mark it seen, recurse on its record id with the updated `seen`, and splice
the recursive result in; finally dedupe by id. -/
def getDescendantsAux (g : Gen) : Nat → Str → List Str → List Person × List Str
  | 0, _, seen => ([], seen)
  | fuel + 1, id, seen =>
    match mapGet g id with
    | none => ([], seen)
    | some person =>
      let r := person.descendants.foldl
        (fun (acc : List Person × List Str) childId =>
          match mapGet g childId with
          | none => acc
          | some child =>
            if child.id ∈ acc.2 then acc
            else
              let sub := getDescendantsAux g fuel child.id (child.id :: acc.2)
              (acc.1 ++ child :: sub.1, sub.2))
        ([], seen)
      (dedupById r.1 [], r.2)

/-- `getDescendants(id)` as called with a fresh `seen`; the fuel bound
`g.length + 1` dominates the recursion depth, since every recursive call
marks a previously unseen record id seen first. -/
def getDescendants (g : Gen) (id : Str) : List Person :=
  (getDescendantsAux g (g.length + 1) id []).1

/-- `getAncestors` (app.js 678-693), same treatment: scan every record; each
one whose `descendants` list contains the target id and whose own id is not
yet seen is pushed, marked seen, and recursed from (by its record id, with
the updated `seen`); finally dedupe by id. -/
def getAncestorsAux (g : Gen) : Nat → Str → List Str → List Person × List Str
  | 0, _, seen => ([], seen)
  | fuel + 1, id, seen =>
    let r := (mapValues g).foldl
      (fun (acc : List Person × List Str) person =>
        if id ∈ person.descendants ∧ person.id ∉ acc.2 then
          let sub := getAncestorsAux g fuel person.id (person.id :: acc.2)
          (acc.1 ++ person :: sub.1, sub.2)
        else acc)
      ([], seen)
    (dedupById r.1 [], r.2)

/-- `getAncestors(id)` as called with a fresh `seen`. -/
def getAncestors (g : Gen) (id : Str) : List Person :=
  (getAncestorsAux g (g.length + 1) id []).1

/-- The `rootPerson` selection of `initializeTree` (app.js 449-453): the
record under key `"adam"`, else the record under key `"root"`, else the first
record whose id is `"adam"`, else the first record in map-iteration order
(records are always truthy, so `||` picks the first lookup that succeeds). -/
def rootPersonOf (g : Gen) : Option Person :=
  match mapGet g ("adam".toList) with
  | some p => some p
  | none =>
    match mapGet g ("root".toList) with
    | some p => some p
    | none =>
      match (mapValues g).find? (fun p => p.id = "adam".toList) with
      | some p => some p
      | none => (mapValues g).head?

/-- The process-wide mutable state the navigation functions touch: the loaded
map, the breadcrumb path of display names, and the set of expanded node ids. -/
structure AppState where
  genealogyData : Gen
  currentPath : List Str
  expandedNodes : List Str
deriving DecidableEq

/-- `initializeTree` (app.js 446-465) as a state transition: when no root
person is found the function logs and returns with the state untouched;
otherwise it renders the root node and sets `currentPath` to the root's
name. -/
def initializeTree (st : AppState) : AppState :=
  match rootPersonOf st.genealogyData with
  | none => st
  | some p => { st with currentPath := [p.name] }

/-- `jumpToPerson` (app.js 823-838) as a state transition: resolve the target
through `findPerson`, falling back to the first `fuzzyFind` result; on
failure log and return with the state untouched; on success clear
`expandedNodes` and reset `currentPath` to the target's display name. -/
def jumpToPerson (st : AppState) (personId : Str) : AppState :=
  match (findPerson st.genealogyData personId).orElse
      (fun _ => (fuzzyFind st.genealogyData personId).head?) with
  | none => st
  | some person => { st with expandedNodes := [], currentPath := [person.name] }

mutual
/-- A raw JSON value as `flattenEntries` distinguishes them: `null`, a string
(`typeof ≠ 'object'`; numbers and booleans play the same role and are not
modelled separately), an array, or an object. -/
inductive JVal where
  | vnull : JVal
  | vstr : Str → JVal
  | varr : JArr → JVal
  | vobj : JObj → JVal
/-- The element list of a raw array. -/
inductive JArr where
  | anil : JArr
  | acons : JVal → JArr → JArr
/-- The field list of a raw object, in insertion order. -/
inductive JObj where
  | onil : JObj
  | ocons : Str → JVal → JObj → JObj
end

instance : Inhabited JVal := ⟨JVal.vnull⟩

instance : Inhabited JArr := ⟨JArr.anil⟩

instance : Inhabited JObj := ⟨JObj.onil⟩

mutual
def beqV : JVal → JVal → Bool
  | .vnull, .vnull => true
  | .vstr a, .vstr b => a = b
  | .varr a, .varr b => beqA a b
  | .vobj a, .vobj b => beqO a b
  | _, _ => false
def beqA : JArr → JArr → Bool
  | .anil, .anil => true
  | .acons a as, .acons b bs => beqV a b && beqA as bs
  | _, _ => false
def beqO : JObj → JObj → Bool
  | .onil, .onil => true
  | .ocons k a as, .ocons k2 b bs => k = k2 && beqV a b && beqO as bs
  | _, _ => false
end

/-- The field list of an object as a Lean list; empty for non-objects. -/
def JObj.toList : JObj → List (Str × JVal)
  | .onil => []
  | .ocons k v rest => (k, v) :: rest.toList

/-- Rebuild an object from a Lean field list. -/
def objOfList : List (Str × JVal) → JObj
  | [] => .onil
  | (k, v) :: rest => .ocons k v (objOfList rest)

/-- The element list of an array as a Lean list. -/
def JArr.toList : JArr → List JVal
  | .anil => []
  | .acons v rest => v :: rest.toList

/-- The fields of a value: an object's fields, nothing for anything else. -/
def fieldsOf : JVal → List (Str × JVal)
  | .vobj o => o.toList
  | _ => []

/-- JavaScript truthiness of a raw value: `null` and the empty string are
falsy; every other string, every array and every object is truthy. -/
def truthy : JVal → Bool
  | .vnull => false
  | .vstr s => !s.isEmpty
  | .varr _ => true
  | .vobj _ => true

/-- An id-keyed object map under construction (`outMap`, and later
`genealogyData` in its raw form), as an insertion-ordered association list. -/
abbrev JMap := List (Str × JVal)

/-- Property read on an object's field list (`value.id`, `outMap[k]`):
the field's value, or `none` when the property is absent. -/
def objGet (m : JMap) (k : Str) : Option JVal :=
  (m.find? (fun kv => kv.1 = k)).map (fun kv => kv.2)

/-- Property write `m[k] = v`: overwrite in place when the key exists
(JavaScript keeps the key's original position), append otherwise. -/
def objSet (m : JMap) (k : Str) (v : JVal) : JMap :=
  if m.any (fun kv => kv.1 = k) then
    m.map (fun kv => if kv.1 = k then (k, v) else kv)
  else m ++ [(k, v)]

/-- The value the last write of key `k` in field list `l` would leave: the
rightmost occurrence.  On a well-formed object (no duplicate keys) this is
plain property lookup. -/
def lastGet (l : JMap) (k : Str) : Option JVal :=
  (l.reverse.find? (fun kv => kv.1 = k)).map (fun kv => kv.2)

/-- The keys of a map, in order. -/
def keysOf (m : JMap) : List Str :=
  m.map (fun kv => kv.1)

/-- `isPersonObject` (app.js 336-340): an object with at least one of the
five known person fields.  (The `in` test on an array never sees these
names, so arrays are not person-shaped.) -/
def isPersonObject : JVal → Bool
  | .vobj o =>
    let l := o.toList
    l.any (fun kv => kv.1 = "descendants".toList) || l.any (fun kv => kv.1 = "bio".toList) ||
    l.any (fun kv => kv.1 = "scripture".toList) || l.any (fun kv => kv.1 = "name".toList) ||
    l.any (fun kv => kv.1 = "id".toList)
  | _ => false

mutual
/-- `String(v)` for a raw value: a string is itself, `null` prints `null`,
an object prints `[object Object]`, an array joins its elements with commas
(`Array.prototype.join`, which prints `null` elements as empty). -/
def jsToString : JVal → Str
  | .vnull => "null".toList
  | .vstr s => s
  | .vobj _ => "[object Object]".toList
  | .varr es => arrJoin es
/-- `Array.prototype.join(',')` over the element list. -/
def arrJoin : JArr → Str
  | .anil => []
  | .acons .vnull .anil => []
  | .acons v .anil => jsToString v
  | .acons .vnull rest => ',' :: arrJoin rest
  | .acons v rest => jsToString v ++ ',' :: arrJoin rest
end

/-- Decimal digits of a positive number, most significant first (the fuel is
the number itself, which bounds the digit count). -/
def natDigits : Nat → Nat → Str
  | 0, _ => []
  | _ + 1, 0 => []
  | fuel + 1, n + 1 =>
    natDigits fuel ((n + 1) / 10) ++ [Char.ofNat (48 + (n + 1) % 10)]

/-- Decimal printing of an array index, as `Object.entries` keys them. -/
def natToStr (n : Nat) : Str :=
  if n = 0 then ['0'] else natDigits n n


/-- The map key chosen by `flattenEntries` (app.js 345), computed from a
field list: `(value.id && String(value.id)) || key` — when the id property is
truthy and its string form is non-empty, that string; otherwise the
structural key. -/
def jsMapKeyF (key : Str) (l : JMap) : Str :=
  match objGet l ("id".toList) with
  | some i =>
    if truthy i then
      let s := jsToString i
      if s.isEmpty then key else s
    else key
  | none => key

/-- The map key of a raw value. -/
def jsMapKey (key : Str) (v : JVal) : Str :=
  jsMapKeyF key (fieldsOf v)

/-- `x || ''`: the property's value when truthy, else the empty string —
the `bio`/`scripture` defaults. -/
def jsOrEmpty (o : Option JVal) : JVal :=
  match o with
  | some v => if truthy v then v else .vstr []
  | none => .vstr []

/-- The six fields the object literal of `flattenEntries` (app.js 346-353)
writes before spreading `value`: defaulted `id`, `name`, `bio`, `scripture`,
a copied-or-empty `descendants`, and `__sourceKey`. -/
def baseRecord (key mapKey : Str) (l : JMap) : JMap :=
  [ ("id".toList,
      match objGet l ("id".toList) with
      | some i => if truthy i then i else .vstr mapKey
      | none => .vstr mapKey),
    ("name".toList,
      match objGet l ("name".toList) with
      | some n => if truthy n then n else .vstr (prettifyKey mapKey)
      | none => .vstr (prettifyKey mapKey)),
    ("bio".toList, jsOrEmpty (objGet l ("bio".toList))),
    ("scripture".toList, jsOrEmpty (objGet l ("scripture".toList))),
    ("descendants".toList,
      match objGet l ("descendants".toList) with
      | some (.varr es) => .varr es
      | _ => .varr .anil),
    ("__sourceKey".toList, .vstr key) ]

/-- The full field list of the record literal: the six defaulted fields, then
the spread `...value`, whose fields overwrite in place (JavaScript keeps the
first-insertion position of every key). -/
def mkRecordFields (key mapKey : Str) (l : JMap) : JMap :=
  l.foldl (fun m kv => objSet m kv.1 kv.2) (baseRecord key mapKey l)

/-- The emitted record, as a raw object value. -/
def mkRecord (key mapKey : Str) (l : JMap) : JVal :=
  .vobj (objOfList (mkRecordFields key mapKey l))

/-- The two map writes of the person branch (app.js 346-355): store the record
under `mapKey`, and when the structural key differs also under `key`. -/
def personWrite (key : Str) (fs : JObj) (out : JMap) : JMap :=
  let mk := jsMapKey key (.vobj fs)
  let r := mkRecord key mk fs.toList
  let m1 := objSet out mk r
  if mk = key then m1 else objSet m1 key r

mutual
/-- The entry walk of `flattenEntries` (app.js 341-360) over an object's
fields: skip non-object values, write person-shaped objects (dual-keyed),
recurse into everything else. -/
def flattenObj : JObj → JMap → JMap
  | .onil, out => out
  | .ocons key value rest, out =>
    flattenObj rest
      (match value with
       | .vnull => out
       | .vstr _ => out
       | .varr es => flattenArr 0 es out
       | .vobj fs =>
         if isPersonObject (.vobj fs) then personWrite key fs out
         else flattenObj fs out)
/-- The same walk over an array's `Object.entries`, whose keys are the
decimal indices; arrays are never person-shaped, so they are always recursed
into. -/
def flattenArr : Nat → JArr → JMap → JMap
  | _, .anil, out => out
  | i, .acons v rest, out =>
    flattenArr (i + 1) rest
      (match v with
       | .vnull => out
       | .vstr _ => out
       | .varr es => flattenArr 0 es out
       | .vobj fs =>
         if isPersonObject (.vobj fs) then personWrite (natToStr i) fs out
         else flattenObj fs out)
end

/-- `flattenEntries(obj, outMap)`: walk `Object.entries(obj || {})`. -/
def flattenEntries : JVal → JMap → JMap
  | .vobj fs, out => flattenObj fs out
  | .varr es, out => flattenArr 0 es out
  | _, out => out

mutual
/-- The person entries `flattenObj` hits, in order: each as
(structural key, map key, raw field list). -/
def emitsObj : JObj → List (Str × Str × JMap)
  | .onil => []
  | .ocons key value rest =>
    (match value with
     | .vnull => []
     | .vstr _ => []
     | .varr es => emitsArr 0 es
     | .vobj fs =>
       if isPersonObject (.vobj fs) then [(key, jsMapKey key (.vobj fs), fs.toList)]
       else emitsObj fs)
    ++ emitsObj rest
/-- The person entries `flattenArr` hits, in order. -/
def emitsArr : Nat → JArr → List (Str × Str × JMap)
  | _, .anil => []
  | i, .acons v rest =>
    (match v with
     | .vnull => []
     | .vstr _ => []
     | .varr es => emitsArr 0 es
     | .vobj fs =>
       if isPersonObject (.vobj fs) then [(natToStr i, jsMapKey (natToStr i) (.vobj fs), fs.toList)]
       else emitsObj fs)
    ++ emitsArr (i + 1) rest
end

/-- The map writes one emitted person entry performs: the record under its
map key, then — when the keys differ — the same record under the structural
key. -/
def writesOfEmit (e : Str × Str × JMap) : List (Str × JVal) :=
  let r := mkRecord e.1 e.2.1 e.2.2
  if e.2.1 = e.1 then [(e.2.1, r)] else [(e.2.1, r), (e.1, r)]

/-- All map writes of an object walk, in order. -/
def writesObj (o : JObj) : List (Str × JVal) :=
  (emitsObj o).flatMap writesOfEmit

/-- Replay a write list onto a map. -/
def applyWrites (ws : List (Str × JVal)) (out : JMap) : JMap :=
  ws.foldl (fun m kv => objSet m kv.1 kv.2) out

/-- All map writes of an array walk, in order. -/
def writesArr (i : Nat) (a : JArr) : List (Str × JVal) :=
  (emitsArr i a).flatMap writesOfEmit

/-- The person entries a whole `flattenEntries(raw, …)` call hits. -/
def emitsOf : JVal → List (Str × Str × JMap)
  | .vobj o => emitsObj o
  | .varr a => emitsArr 0 a
  | _ => []

/-- All map writes of a whole `flattenEntries(raw, …)` call, in order. -/
def writesOf (v : JVal) : List (Str × JVal) :=
  (emitsOf v).flatMap writesOfEmit

/-- The six field names the record literal always writes. -/
def recordFieldNames : List Str :=
  ["id".toList, "name".toList, "bio".toList, "scripture".toList,
   "descendants".toList, "__sourceKey".toList]

/-- Extensional equality of raw records: every property reads the same.
JavaScript object equivalence for all field readers; field order (which only
affects iteration) is not compared. -/
def recExt (a b : JVal) : Prop :=
  ∀ f : Str, objGet (fieldsOf a) f = objGet (fieldsOf b) f

/-- `recExt` lifted to lookup results. -/
def optRecExt : Option JVal → Option JVal → Prop
  | none, none => True
  | some a, some b => recExt a b
  | _, _ => False

/-- A normalized map is id-consistent when every stored record is also what
its own recomputed map key (`(id && String(id)) || key`) looks up: no later
entry has overwritten another record's id slot. -/
def idConsistent (m : JMap) : Prop :=
  ∀ kv ∈ m, objGet m (jsMapKey kv.1 kv.2) = some kv.2

/-- No key occurs twice in the map. -/
def NoDupKeys (m : JMap) : Prop :=
  (keysOf m).Nodup

-- ------------------------------------------------------------------
-- Concrete fixtures used by the counterexample and witness theorems.
-- ------------------------------------------------------------------

/-- Record `a` of the deliberately cyclic two-record map. -/
def cycA : Person := ⟨"a".toList, "A".toList, [], [], ["b".toList]⟩

/-- Record `b` of the deliberately cyclic two-record map. -/
def cycB : Person := ⟨"b".toList, "B".toList, [], [], ["a".toList]⟩

/-- The malformed map of the spec's cycle test: `{a: desc=[b], b: desc=[a]}`. -/
def cycMap : Gen := [("a".toList, cycA), ("b".toList, cycB)]

/-- A record whose `descendants` mention an id absent from the map. -/
def danglingP : Person := ⟨"p".toList, "P".toList, [], [], ["ghost".toList]⟩

/-- A one-record map with a dangling reference to `"ghost"`. -/
def gDangling : Gen := [("p".toList, danglingP)]

/-- A record that matches the query `noah` only by its name. -/
def noahByName : Person := ⟨"x".toList, "noah".toList, [], [], []⟩

/-- A record that matches the query `noah` by its id. -/
def noahById : Person := ⟨"noah".toList, "y".toList, [], [], []⟩

/-- A map where a name-only match precedes an id match in iteration order,
with neither record stored under the key `noah`. -/
def gNoah : Gen := [("k1".toList, noahByName), ("k2".toList, noahById)]

/-- A record whose id is exactly `adam`, stored under a different key. -/
def pAdamId : Person := ⟨"adam".toList, "Adam".toList, [], [], []⟩

/-- A record with id `r`, stored under the key `root`. -/
def pRootKey : Person := ⟨"r".toList, "R".toList, [], [], []⟩

/-- A map holding an id-`adam` record under key `x1` and another record under
key `root`. -/
def gRoot : Gen := [("x1".toList, pAdamId), ("root".toList, pRootKey)]

/-- A record whose bio contains `oah` while no id or name equals it. -/
def pBioOah : Person := ⟨"s".toList, "Shem".toList, "son of noah".toList, [], []⟩

/-- A one-record map for the jump fallback: `findPerson "oah"` misses,
`fuzzyFind "oah"` hits the bio. -/
def gJump : Gen := [("s".toList, pBioOah)]

/-- A navigation state over `gJump` with a non-trivial path and expansion. -/
def stJump : AppState := ⟨gJump, ["Shem".toList], ["s".toList]⟩

/-- A navigation state over the empty map. -/
def stEmpty : AppState := ⟨[], ["old".toList], ["old".toList]⟩

/-- The raw input of the normalizer counterexamples: entry `a` carries the id
`b` of the later structural key `b`. -/
def rawClash : JVal :=
  .vobj (objOfList
    [("a".toList, .vobj (objOfList
        [("id".toList, .vstr ("b".toList)), ("bio".toList, .vstr ("A".toList))])),
     ("b".toList, .vobj (objOfList [("bio".toList, .vstr ("B".toList))]))])

/-- A raw input with an explicitly null `bio`. -/
def rawNullBio : JVal :=
  .vobj (objOfList [("k".toList, .vobj (objOfList [("bio".toList, .vnull)]))])

/-- A well-behaved raw input (truthy id distinct from its key, no clashes)
for the normalizer witnesses. -/
def rawDual : JVal :=
  .vobj (objOfList
    [("first_man".toList, .vobj (objOfList
        [("id".toList, .vstr ("adam".toList)), ("bio".toList, .vstr ("made".toList))]))])

-- ------------------------------------------------------------------
-- Theorems.  (The three `DecidableEq` instances below are definitions,
-- but must follow the equivalence lemmas they are built from.)
-- ------------------------------------------------------------------

mutual
theorem beqV_iff : ∀ a b : JVal, beqV a b = true ↔ a = b
  | .vnull, .vnull => by simp [beqV]
  | .vstr a, .vstr b => by simp [beqV]
  | .varr a, .varr b => by simp [beqV, beqA_iff a b]
  | .vobj a, .vobj b => by simp [beqV, beqO_iff a b]
  | .vnull, .vstr _ => by simp [beqV]
  | .vnull, .varr _ => by simp [beqV]
  | .vnull, .vobj _ => by simp [beqV]
  | .vstr _, .vnull => by simp [beqV]
  | .vstr _, .varr _ => by simp [beqV]
  | .vstr _, .vobj _ => by simp [beqV]
  | .varr _, .vnull => by simp [beqV]
  | .varr _, .vstr _ => by simp [beqV]
  | .varr _, .vobj _ => by simp [beqV]
  | .vobj _, .vnull => by simp [beqV]
  | .vobj _, .vstr _ => by simp [beqV]
  | .vobj _, .varr _ => by simp [beqV]
theorem beqA_iff : ∀ a b : JArr, beqA a b = true ↔ a = b
  | .anil, .anil => by simp [beqA]
  | .acons a as, .acons b bs => by simp [beqA, beqV_iff a b, beqA_iff as bs]
  | .anil, .acons _ _ => by simp [beqA]
  | .acons _ _, .anil => by simp [beqA]
theorem beqO_iff : ∀ a b : JObj, beqO a b = true ↔ a = b
  | .onil, .onil => by simp [beqO]
  | .ocons k a as, .ocons k2 b bs => by simp [beqO, beqV_iff a b, beqO_iff as bs, and_assoc]
  | .onil, .ocons _ _ _ => by simp [beqO]
  | .ocons _ _ _, .onil => by simp [beqO]
end

instance : DecidableEq JVal := fun a b => decidable_of_iff _ (beqV_iff a b)

instance : DecidableEq JArr := fun a b => decidable_of_iff _ (beqA_iff a b)

instance : DecidableEq JObj := fun a b => decidable_of_iff _ (beqO_iff a b)

theorem dedupById_nodup_away :
    ∀ (l : List Person) (ids : List Str),
      ((dedupById l ids).map Person.id).Nodup ∧
      ∀ p ∈ dedupById l ids, p.id ∉ ids := by
  intro l
  induction l with
  | nil => intro ids; simp [dedupById]
  | cons p ps ih =>
    intro ids
    by_cases h : p.id ∈ ids
    · simpa [dedupById, h] using ih ids
    · have h2 := ih (p.id :: ids)
      simp only [dedupById, h, if_false, if_neg, not_false_eq_true]
      constructor
      · simp only [List.map_cons, List.nodup_cons]
        refine ⟨?_, h2.1⟩
        intro hmem
        rcases List.mem_map.mp hmem with ⟨q, hq, hqid⟩
        exact (h2.2 q hq) (by simp [hqid])
      · intro q hq
        rcases List.mem_cons.mp hq with rfl | hq
        · exact h
        · intro hin
          exact (h2.2 q hq) (List.mem_cons_of_mem _ hin)

theorem getDescendantsAux_nodup (g : Gen) (fuel : Nat) (id : Str) (seen : List Str) :
    (((getDescendantsAux g fuel id seen).1).map Person.id).Nodup := by
  cases fuel with
  | zero => simp [getDescendantsAux]
  | succ n =>
    cases h : mapGet g id with
    | none => simp [getDescendantsAux, h]
    | some person => simpa [getDescendantsAux, h] using (dedupById_nodup_away _ []).1

theorem getDescendants_nodup (g : Gen) (id : Str) :
    ((getDescendants g id).map Person.id).Nodup :=
  getDescendantsAux_nodup g _ id []

/-- Claim C1 (counterexample): on the malformed cyclic map
`{a: desc=[b], b: desc=[a]}`, `getDescendants("a")` does contain the record
with id `a` — the queried person itself — because the visited set is not
pre-seeded with the start id: the walk reaches `a` again through `b`. -/
theorem C1_descendants_cycle_cex :
    getDescendants cycMap ("a".toList) = [cycB, cycA] ∧
    cycA ∈ getDescendants cycMap ("a".toList) ∧ cycA.id = "a".toList := by decide

/-- Claim C1 (amended): `getDescendants` deduplicates by record id (no id
appears twice in any output), and on the cyclic map `{a: desc=[b], b:
desc=[a]}` it terminates with the stable value `[b, a]` — stable in that
every fuel bound from the recursion depth 2 up computes the same list — so
`b` appears exactly once, but the queried record `a` also appears (once),
via the cycle, instead of being excluded. -/
theorem C1_descendants_cycle_amended :
    (∀ n : Nat, (getDescendantsAux cycMap (n + 2) ("a".toList) []).1 = [cycB, cycA]) ∧
    getDescendants cycMap ("a".toList) = [cycB, cycA] ∧
    (∀ (g : Gen) (id : Str), ((getDescendants g id).map Person.id).Nodup) := by
  refine ⟨?_, by decide, fun g id => getDescendants_nodup g id⟩
  intro n
  cases n with
  | zero => rfl
  | succ m => rfl

theorem getAncestorsAux_unreferenced (g : Gen) (fuel : Nat) (id : Str) (seen : List Str)
    (h : ∀ p ∈ mapValues g, id ∉ p.descendants) :
    getAncestorsAux g fuel id seen = ([], seen) := by
  cases fuel with
  | zero => rfl
  | succ n =>
    have hfold : ∀ (l : List Person) (acc : List Person × List Str),
        (∀ p ∈ l, id ∉ p.descendants) →
        (l.foldl
          (fun acc person =>
            if id ∈ person.descendants ∧ person.id ∉ acc.2 then
              let sub := getAncestorsAux g n person.id (person.id :: acc.2)
              (acc.1 ++ person :: sub.1, sub.2)
            else acc)
          acc) = acc := by
      intro l
      induction l with
      | nil => intro acc _; rfl
      | cons p ps ih =>
        intro acc hl
        have hp : id ∉ p.descendants := hl p (List.mem_cons_self p ps)
        simp only [List.foldl_cons, hp, false_and, if_false, if_neg, not_false_eq_true,
          and_false]
        · exact ih acc (fun q hq => hl q (List.mem_cons_of_mem _ hq))
    simp [getAncestorsAux, hfold (mapValues g) ([], seen) h, dedupById]

/-- Claim C4 (counterexample): for the one-record map `{p: desc=["ghost"]}`
the id `ghost` is absent from the map, and `getDescendants("ghost")` is
indeed empty — but `getAncestors("ghost")` returns the referencing record
`p`, not the empty sequence the claim requires of both operations. -/
theorem C4_absent_id_cex :
    mapGet gDangling ("ghost".toList) = none ∧
    getDescendants gDangling ("ghost".toList) = [] ∧
    getAncestors gDangling ("ghost".toList) = [danglingP] := by decide

/-- Claim C4 (amended): `getDescendants(id)` returns the empty sequence (not
an error) whenever `id` is absent from the map, even when dangling references
mention it; `getAncestors(id)` returns the empty sequence for an id that no
record's `descendants` mention — but when some record does mention the absent
id, `getAncestors` returns that referencing record rather than an empty
sequence (still no error). -/
theorem C4_absent_id_amended :
    (∀ (g : Gen) (id : Str), mapGet g id = none → getDescendants g id = []) ∧
    (∀ (g : Gen) (id : Str), (∀ p ∈ mapValues g, id ∉ p.descendants) →
      getAncestors g id = []) := by
  constructor
  · intro g id h
    simp [getDescendants, getDescendantsAux, h]
  · intro g id h
    simp [getAncestors, getAncestorsAux_unreferenced g _ id [] h]

/-- Witness for C4 (amended): both parts applied to the empty map and the
query `x`, whose hypotheses hold by computation. -/
theorem C4_absent_id_witness :
    getDescendants ([] : Gen) ("x".toList) = [] ∧
    getAncestors ([] : Gen) ("x".toList) = [] :=
  ⟨C4_absent_id_amended.1 [] ("x".toList) (by decide),
   C4_absent_id_amended.2 [] ("x".toList) (by decide)⟩

theorem findScan_eq_find? (nq : Str) :
    ∀ l : List Person,
      findScan l nq =
        l.find? (fun p => normalizeText p.id = nq || normalizeText p.name = nq) := by
  intro l
  induction l with
  | nil => rfl
  | cons p ps ih =>
    by_cases hid : normalizeText p.id = nq
    · simp [findScan, List.find?_cons, hid]
    · by_cases hname : normalizeText p.name = nq
      · simp [findScan, List.find?_cons, hid, hname]
      · simp [findScan, List.find?_cons, hid, hname, ih]

/-- Claim C3 (counterexample): in the map `{k1: {id: x, name: noah}, k2:
{id: noah, name: y}}` the query `noah` hits no map key, the record `k2`
matches by normalized id, yet `findPerson` returns the record `k1`, which
matches only by normalized name — because the single scan checks id and name
per record, not id over the whole map first. -/
theorem C3_find_priority_cex :
    findPerson gNoah ("noah".toList) = some noahByName ∧
    noahById ∈ mapValues gNoah ∧
    normalizeText noahById.id = normalizeText ("noah".toList) ∧
    normalizeText noahByName.id ≠ normalizeText ("noah".toList) ∧
    noahByName ≠ noahById := by decide

/-- Claim C3 (amended): `findPerson` resolves (1) an empty query to null,
(2) a verbatim (trimmed) map-key hit to that record, and (3) otherwise to the
first record in map-iteration order whose normalized id **or** normalized
name equals the normalized query — the id is tested before the name within
each record, but a later record's id match does not outrank an earlier
record's name match. -/
theorem C3_find_priority_amended :
    ∀ (g : Gen) (q : Str),
      (q = [] → findPerson g q = none) ∧
      (∀ p, q ≠ [] → mapGet g (jsTrim q) = some p → findPerson g q = some p) ∧
      (q ≠ [] → mapGet g (jsTrim q) = none →
        findPerson g q =
          (mapValues g).find?
            (fun p => normalizeText p.id = normalizeText (jsTrim q) ||
                      normalizeText p.name = normalizeText (jsTrim q))) := by
  intro g q
  refine ⟨fun h => by simp [findPerson, h], fun p hq hp => ?_, fun hq hp => ?_⟩
  · simp [findPerson, List.isEmpty_iff, hq, hp]
  · simp [findPerson, List.isEmpty_iff, hq, hp, findScan_eq_find?]

/-- Witness for C3 (amended): parts (1) and (3) applied to the `gNoah` map:
the empty query yields null, and for the query `noah` (no verbatim key hit)
`findPerson` agrees with the first-id-or-name scan, which picks the
name-match `k1`. -/
theorem C3_find_priority_witness :
    findPerson gNoah [] = none ∧
    findPerson gNoah ("noah".toList) =
      (mapValues gNoah).find?
        (fun p => normalizeText p.id = normalizeText (jsTrim ("noah".toList)) ||
                  normalizeText p.name = normalizeText (jsTrim ("noah".toList))) :=
  ⟨(C3_find_priority_amended gNoah []).1 rfl,
   (C3_find_priority_amended gNoah ("noah".toList)).2.2 (by decide) (by decide)⟩

/-- Claim C5 (counterexample): in the map `{x1: {id: adam}, root: {id: r}}`
a record with id exactly `adam` is present, yet the display root chosen is
the record stored under the key `root` (id `r`): the code's second fallback
is the map key `root`, which the claimed priority list does not mention, and
its first step tests the map key `adam`, not the record ids. -/
theorem C5_root_priority_cex :
    rootPersonOf gRoot = some pRootKey ∧
    pRootKey.id ≠ "adam".toList ∧
    pAdamId ∈ mapValues gRoot ∧ pAdamId.id = "adam".toList := by decide

/-- Claim C5 (amended): the display-root choice of `initializeTree` follows
this priority: (1) the record stored under the map key `adam`; (2) else the
record stored under the map key `root`; (3) else the first record in
map-iteration order whose id is exactly `adam`; (4) else the first record in
map-iteration order; (5) `null` when the map is empty, in which case
`initializeTree` logs and returns with the state untouched (no crash). -/
theorem C5_root_priority_amended :
    ∀ (g : Gen) (st : AppState),
      (∀ p, mapGet g ("adam".toList) = some p → rootPersonOf g = some p) ∧
      (mapGet g ("adam".toList) = none →
        ∀ p, mapGet g ("root".toList) = some p → rootPersonOf g = some p) ∧
      (mapGet g ("adam".toList) = none → mapGet g ("root".toList) = none →
        ∀ p, (mapValues g).find? (fun r => r.id = "adam".toList) = some p →
          rootPersonOf g = some p) ∧
      (mapGet g ("adam".toList) = none → mapGet g ("root".toList) = none →
        (mapValues g).find? (fun r => r.id = "adam".toList) = none →
          rootPersonOf g = (mapValues g).head?) ∧
      (g = [] → rootPersonOf g = none) ∧
      (st.genealogyData = [] → initializeTree st = st) := by
  intro g st
  refine ⟨fun p hp => by simp only [rootPersonOf, hp],
          fun h1 p hp => by simp only [rootPersonOf, h1, hp],
          fun h1 h2 p hp => by simp only [rootPersonOf, h1, h2, hp],
          fun h1 h2 h3 => by simp only [rootPersonOf, h1, h2, h3],
          fun h => by simp [rootPersonOf, h, mapGet, mapValues],
          fun h => ?_⟩
  have : rootPersonOf st.genealogyData = none := by
    simp [rootPersonOf, h, mapGet, mapValues]
  simp [initializeTree, this]

/-- Witness for C5 (amended): on `gRoot` (no key `adam`, a record under key
`root`) the choice is the `root` record; on the empty map the choice is
`null` and `initializeTree` leaves the state unchanged. -/
theorem C5_root_priority_witness :
    rootPersonOf gRoot = some pRootKey ∧
    rootPersonOf ([] : Gen) = none ∧
    initializeTree stEmpty = stEmpty :=
  ⟨(C5_root_priority_amended gRoot stEmpty).2.1 (by decide) pRootKey (by decide),
   (C5_root_priority_amended [] stEmpty).2.2.2.2.1 rfl,
   (C5_root_priority_amended [] stEmpty).2.2.2.2.2 rfl⟩

/-- Claim C10: when `findPerson` misses and `fuzzyFind` is empty,
`jumpToPerson` logs and returns — `currentPath`, `expandedNodes` and the
canonical map are all left exactly as they were; when `findPerson` misses
but `fuzzyFind` is non-empty, the jump targets the first fuzzy result,
clearing `expandedNodes` and resetting `currentPath` to that record's
display name, with the map untouched. -/
theorem C10_jump_atomic :
    ∀ (st : AppState) (x : Str), findPerson st.genealogyData x = none →
      (fuzzyFind st.genealogyData x = [] → jumpToPerson st x = st) ∧
      (∀ p ps, fuzzyFind st.genealogyData x = p :: ps →
        jumpToPerson st x = ⟨st.genealogyData, [p.name], []⟩) := by
  intro st x hfind
  constructor
  · intro hfuzz
    simp [jumpToPerson, hfind, hfuzz, Option.orElse]
  · intro p ps hfuzz
    simp [jumpToPerson, hfind, hfuzz, Option.orElse]

/-- Witness for C10: on the empty map a missing query changes nothing, and
on the one-record `gJump` map the query `oah` misses `findPerson` but hits
the record's bio in `fuzzyFind`, so the jump resets the path to `Shem` and
clears the expansion set. -/
theorem C10_jump_atomic_witness :
    jumpToPerson stEmpty ("zzz".toList) = stEmpty ∧
    jumpToPerson stJump ("oah".toList) = ⟨gJump, ["Shem".toList], []⟩ :=
  ⟨(C10_jump_atomic stEmpty ("zzz".toList) (by decide)).1 (by decide),
   (C10_jump_atomic stJump ("oah".toList) (by decide)).2 pBioOah [] (by decide)⟩

theorem fuzzyScan_cons_start (nq : Str) (p : Person) (ps : List Person) (seen : List Str)
    (hs : tierStart nq p = true) (hm : p.id ∉ seen) :
    fuzzyScan nq (p :: ps) seen =
      (p :: (fuzzyScan nq ps (p.id :: seen)).1, (fuzzyScan nq ps (p.id :: seen)).2) := by
  simp [fuzzyScan, hs, hm]

theorem fuzzyScan_cons_incl (nq : Str) (p : Person) (ps : List Person) (seen : List Str)
    (hs : tierStart nq p = false) (hi : tierIncl nq p = true) (hm : p.id ∉ seen) :
    fuzzyScan nq (p :: ps) seen =
      ((fuzzyScan nq ps (p.id :: seen)).1, p :: (fuzzyScan nq ps (p.id :: seen)).2) := by
  simp [fuzzyScan, hs, hi, hm]

theorem fuzzyScan_cons_seen (nq : Str) (p : Person) (ps : List Person) (seen : List Str)
    (hm : p.id ∈ seen) :
    fuzzyScan nq (p :: ps) seen = fuzzyScan nq ps seen := by
  simp [fuzzyScan, hm]

theorem fuzzyScan_cons_nomatch (nq : Str) (p : Person) (ps : List Person) (seen : List Str)
    (hs : tierStart nq p = false) (hi : tierIncl nq p = false) :
    fuzzyScan nq (p :: ps) seen = fuzzyScan nq ps seen := by
  simp [fuzzyScan, hs, hi]

theorem fuzzyScan_spec (nq : Str) :
    ∀ (l : List Person) (seen : List Str),
      ((fuzzyScan nq l seen).1.Sublist l ∧ (fuzzyScan nq l seen).2.Sublist l) ∧
      (∀ p ∈ (fuzzyScan nq l seen).1, tierStart nq p = true ∧ p.id ∉ seen) ∧
      (∀ p ∈ (fuzzyScan nq l seen).2,
        tierStart nq p = false ∧ tierIncl nq p = true ∧ p.id ∉ seen) ∧
      (∀ p ∈ l, (tierStart nq p = true ∨ tierIncl nq p = true) →
        p.id ∈ seen ∨
        p.id ∈ ((fuzzyScan nq l seen).1 ++ (fuzzyScan nq l seen).2).map Person.id) := by
  intro l
  induction l with
  | nil => intro seen; simp [fuzzyScan]
  | cons p ps ih =>
    intro seen
    by_cases hm : p.id ∈ seen
    · rw [fuzzyScan_cons_seen nq p ps seen hm]
      rcases ih seen with ⟨hsub, hfst, hsnd, hcov⟩
      refine ⟨⟨hsub.1.cons p, hsub.2.cons p⟩, hfst, hsnd, ?_⟩
      intro q hq hmatch
      rcases List.mem_cons.mp hq with rfl | hq
      · exact Or.inl hm
      · exact hcov q hq hmatch
    · by_cases hs : tierStart nq p = true
      · rw [fuzzyScan_cons_start nq p ps seen hs hm]
        rcases ih (p.id :: seen) with ⟨hsub, hfst, hsnd, hcov⟩
        refine ⟨⟨hsub.1.cons₂ p, hsub.2.cons p⟩, ?_, ?_, ?_⟩
        · intro q hq
          rcases List.mem_cons.mp hq with rfl | hq
          · exact ⟨hs, hm⟩
          · have := hfst q hq
            exact ⟨this.1, fun h => this.2 (List.mem_cons_of_mem _ h)⟩
        · intro q hq
          have := hsnd q hq
          exact ⟨this.1, this.2.1, fun h => this.2.2 (List.mem_cons_of_mem _ h)⟩
        · intro q hq hmatch
          rcases List.mem_cons.mp hq with rfl | hq
          · simp
          · rcases hcov q hq hmatch with hin | hin
            · rcases List.mem_cons.mp hin with heq | hin
              · simp [heq]
              · exact Or.inl hin
            · right
              simp only [List.map_cons, List.mem_cons]
              right
              exact hin
      · by_cases hi : tierIncl nq p = true
        · rw [fuzzyScan_cons_incl nq p ps seen (by simpa using hs) hi hm]
          rcases ih (p.id :: seen) with ⟨hsub, hfst, hsnd, hcov⟩
          refine ⟨⟨hsub.1.cons p, hsub.2.cons₂ p⟩, ?_, ?_, ?_⟩
          · intro q hq
            have := hfst q hq
            exact ⟨this.1, fun h => this.2 (List.mem_cons_of_mem _ h)⟩
          · intro q hq
            rcases List.mem_cons.mp hq with rfl | hq
            · exact ⟨by simpa using hs, hi, hm⟩
            · have := hsnd q hq
              exact ⟨this.1, this.2.1, fun h => this.2.2 (List.mem_cons_of_mem _ h)⟩
          · intro q hq hmatch
            rcases List.mem_cons.mp hq with rfl | hq
            · simp
            · rcases hcov q hq hmatch with hin | hin
              · rcases List.mem_cons.mp hin with heq | hin
                · simp [heq]
                · exact Or.inl hin
              · right
                rcases List.mem_map.mp hin with ⟨r, hr, hrid⟩
                refine List.mem_map.mpr ⟨r, ?_, hrid⟩
                rcases List.mem_append.mp hr with h1 | h1
                · exact List.mem_append.mpr (Or.inl h1)
                · exact List.mem_append.mpr (Or.inr (List.mem_cons_of_mem _ h1))
        · rw [fuzzyScan_cons_nomatch nq p ps seen (by simpa using hs) (by simpa using hi)]
          rcases ih seen with ⟨hsub, hfst, hsnd, hcov⟩
          refine ⟨⟨hsub.1.cons p, hsub.2.cons p⟩, hfst, hsnd, ?_⟩
          intro q hq hmatch
          rcases List.mem_cons.mp hq with rfl | hq
          · rcases hmatch with h | h
            · exact absurd h hs
            · exact absurd h hi
          · exact hcov q hq hmatch

theorem nodup_move_middle (x : Str) (A B C : List Str)
    (h : (A ++ (B ++ (x :: C))).Nodup) :
    (x :: (A ++ (B ++ C))).Nodup ∧ (A ++ (x :: (B ++ C))).Nodup := by
  have p1 : (B ++ (x :: C)).Perm (x :: (B ++ C)) := List.perm_middle
  have p2 : (A ++ (B ++ (x :: C))).Perm (A ++ (x :: (B ++ C))) := p1.append_left A
  have p3 : (A ++ (x :: (B ++ C))).Perm (x :: (A ++ (B ++ C))) := List.perm_middle
  exact ⟨(p2.trans p3).nodup h, p2.nodup h⟩

theorem fuzzyScan_nodup (nq : Str) :
    ∀ (l : List Person) (seen : List Str), seen.Nodup →
      ((((fuzzyScan nq l seen).1 ++ (fuzzyScan nq l seen).2).map Person.id) ++ seen).Nodup := by
  intro l
  induction l with
  | nil => intro seen h; simpa [fuzzyScan] using h
  | cons p ps ih =>
    intro seen hseen
    by_cases hm : p.id ∈ seen
    · rw [fuzzyScan_cons_seen nq p ps seen hm]
      exact ih seen hseen
    · by_cases hs : tierStart nq p = true
      · rw [fuzzyScan_cons_start nq p ps seen hs hm]
        have h2 := ih (p.id :: seen) (List.nodup_cons.mpr ⟨hm, hseen⟩)
        simp only [List.map_append, List.map_cons, List.append_assoc] at h2 ⊢
        exact (nodup_move_middle p.id _ _ _ h2).1
      · by_cases hi : tierIncl nq p = true
        · rw [fuzzyScan_cons_incl nq p ps seen (by simpa using hs) hi hm]
          have h2 := ih (p.id :: seen) (List.nodup_cons.mpr ⟨hm, hseen⟩)
          simp only [List.map_append, List.map_cons, List.append_assoc] at h2 ⊢
          exact (nodup_move_middle p.id _ _ _ h2).2
        · rw [fuzzyScan_cons_nomatch nq p ps seen (by simpa using hs) (by simpa using hi)]
          exact ih seen hseen

/-- Claim C6: `fuzzyFind` returns the tier-1 hits (normalized id or name
starts with the normalized query) strictly before the tier-2 hits (not tier
1, and normalized id, name or bio contains the query); within each tier the
order is map-iteration order (each tier is a sublist of `Object.values`);
the result is deduplicated by id, every matching record is represented by
its id, and an empty query yields the empty list, never every record. -/
theorem C6_fuzzy_two_tiers :
    ∀ (g : Gen) (q : Str),
      fuzzyFind g [] = [] ∧
      (q ≠ [] →
        ∃ s t, fuzzyFind g q = s ++ t ∧
          s.Sublist (mapValues g) ∧ t.Sublist (mapValues g) ∧
          (∀ p ∈ s, tierStart (normalizeText q) p = true) ∧
          (∀ p ∈ t, tierStart (normalizeText q) p = false ∧
            tierIncl (normalizeText q) p = true) ∧
          (((s ++ t).map Person.id).Nodup) ∧
          (∀ p ∈ mapValues g,
            (tierStart (normalizeText q) p = true ∨ tierIncl (normalizeText q) p = true) →
            p.id ∈ (s ++ t).map Person.id)) := by
  intro g q
  refine ⟨rfl, fun hq => ?_⟩
  refine ⟨(fuzzyScan (normalizeText q) (mapValues g) []).1,
          (fuzzyScan (normalizeText q) (mapValues g) []).2, ?_, ?_⟩
  · simp [fuzzyFind, List.isEmpty_iff, hq]
  · rcases fuzzyScan_spec (normalizeText q) (mapValues g) [] with ⟨hsub, hfst, hsnd, hcov⟩
    have hnd := fuzzyScan_nodup (normalizeText q) (mapValues g) [] List.nodup_nil
    refine ⟨hsub.1, hsub.2, fun p hp => (hfst p hp).1,
            fun p hp => ⟨(hsnd p hp).1, (hsnd p hp).2.1⟩, by simpa using hnd, ?_⟩
    intro p hp hmatch
    rcases hcov p hp hmatch with hin | hin
    · simp at hin
    · exact hin

/-- Witness for C6: the two-tier decomposition applied to the `gNoah` map and
the query `noah`: both records are tier-1 hits, in map order. -/
theorem C6_fuzzy_two_tiers_witness :
    fuzzyFind gNoah ("noah".toList) = [noahByName, noahById] ∧
    (∃ s t, fuzzyFind gNoah ("noah".toList) = s ++ t ∧
      s.Sublist (mapValues gNoah) ∧ t.Sublist (mapValues gNoah) ∧
      (∀ p ∈ s, tierStart (normalizeText ("noah".toList)) p = true) ∧
      (∀ p ∈ t, tierStart (normalizeText ("noah".toList)) p = false ∧
        tierIncl (normalizeText ("noah".toList)) p = true) ∧
      (((s ++ t).map Person.id).Nodup) ∧
      (∀ p ∈ mapValues gNoah,
        (tierStart (normalizeText ("noah".toList)) p = true ∨
          tierIncl (normalizeText ("noah".toList)) p = true) →
        p.id ∈ (s ++ t).map Person.id)) :=
  ⟨by decide, (C6_fuzzy_two_tiers gNoah ("noah".toList)).2 (by decide)⟩

theorem tierStart_nil (p : Person) : tierStart [] p = true := by
  simp [tierStart, strStarts]

theorem fuzzyScan_nil_query :
    ∀ (l : List Person) (seen : List Str),
      fuzzyScan [] l seen = (dedupById l seen, []) := by
  intro l
  induction l with
  | nil => intro seen; rfl
  | cons p ps ih =>
    intro seen
    by_cases hm : p.id ∈ seen
    · rw [fuzzyScan_cons_seen [] p ps seen hm]
      simp [dedupById, hm, ih]
    · rw [fuzzyScan_cons_start [] p ps seen (tierStart_nil p) hm]
      simp [dedupById, hm, ih]

theorem dedupById_covers :
    ∀ (l : List Person) (seen : List Str), ∀ p ∈ l,
      p.id ∈ seen ∨ ∃ p' ∈ dedupById l seen, p'.id = p.id := by
  intro l
  induction l with
  | nil => intro seen p hp; cases hp
  | cons q qs ih =>
    intro seen p hp
    by_cases hm : q.id ∈ seen
    · rcases List.mem_cons.mp hp with rfl | hp
      · exact Or.inl hm
      · rcases ih seen p hp with h | ⟨p', hp', hid⟩
        · exact Or.inl h
        · exact Or.inr ⟨p', by simp [dedupById, hm, hp'], hid⟩
    · rcases List.mem_cons.mp hp with rfl | hp
      · exact Or.inr ⟨p, by simp [dedupById, hm], rfl⟩
      · rcases ih (q.id :: seen) p hp with h | ⟨p', hp', hid⟩
        · rcases List.mem_cons.mp h with heq | h
          · exact Or.inr ⟨q, by simp [dedupById, hm], heq.symm⟩
          · exact Or.inl h
        · exact Or.inr ⟨p', by simp [dedupById, hm, hp'], hid⟩

/-- Claim C9: a non-empty query whose text normalization is empty (for
example `!!!`) makes every record a tier-1 hit — every string starts with the
empty string — so `fuzzyFind` returns the whole record list deduplicated by
id (every record's id is represented), not the empty sequence. -/
theorem C9_empty_normalization_matches_all :
    ∀ (g : Gen) (q : Str), q ≠ [] → normalizeText q = [] →
      fuzzyFind g q = dedupById (mapValues g) [] ∧
      (∀ p ∈ mapValues g, ∃ p' ∈ fuzzyFind g q, p'.id = p.id) ∧
      (g ≠ [] → fuzzyFind g q ≠ []) := by
  intro g q hq hnorm
  have hfind : fuzzyFind g q = dedupById (mapValues g) [] := by
    simp [fuzzyFind, List.isEmpty_iff, hq, hnorm, fuzzyScan_nil_query]
  refine ⟨hfind, ?_, ?_⟩
  · intro p hp
    rcases dedupById_covers (mapValues g) [] p hp with h | ⟨p', hp', hid⟩
    · cases h
    · exact ⟨p', by rw [hfind]; exact hp', hid⟩
  · intro hg
    rw [hfind]
    cases g with
    | nil => exact absurd rfl hg
    | cons kv g2 =>
      simp [mapValues, dedupById]

/-- Witness for C9: the query `!!!` (non-empty, normalizing to the empty
string) on the `gNoah` map returns both records, not the empty sequence. -/
theorem C9_empty_normalization_witness :
    fuzzyFind gNoah ("!!!".toList) = dedupById (mapValues gNoah) [] ∧
    fuzzyFind gNoah ("!!!".toList) = [noahByName, noahById] :=
  ⟨(C9_empty_normalization_matches_all gNoah ("!!!".toList) (by decide) (by decide)).1,
   by decide⟩

theorem objGet_map_subst (m : JMap) (k : Str) (v : JVal) (s : Str) (hs : s ≠ k) :
    objGet (m.map (fun kv => if kv.1 = k then (k, v) else kv)) s = objGet m s := by
  induction m with
  | nil => rfl
  | cons kv m ih =>
    by_cases hkv : kv.1 = k
    · have h1 : ¬((k, v).1 = s) := fun h => hs h.symm
      have h2 : ¬(kv.1 = s) := by rw [hkv]; exact fun h => hs h.symm
      simp only [List.map_cons, hkv, if_true, objGet, List.find?_cons]
      simp only [objGet] at ih
      simpa [h1, h2] using ih
    · simp only [List.map_cons, hkv, if_false, if_neg, not_false_eq_true, objGet,
        List.find?_cons]
      by_cases hkvs : kv.1 = s
      · simp [hkvs]
      · simp only [objGet] at ih
        simpa [hkvs] using ih

theorem objGet_map_subst_self (m : JMap) (k : Str) (v : JVal)
    (h : m.any (fun kv => kv.1 = k) = true) :
    objGet (m.map (fun kv => if kv.1 = k then (k, v) else kv)) k = some v := by
  induction m with
  | nil => simp at h
  | cons kv m ih =>
    by_cases hkv : kv.1 = k
    · simp [objGet, List.find?_cons, hkv]
    · have h2 : m.any (fun kv => kv.1 = k) = true := by
        simpa [hkv] using h
      simp only [List.map_cons, hkv, if_false, if_neg, not_false_eq_true, objGet,
        List.find?_cons]
      simp only [objGet] at ih
      simpa [hkv] using ih h2

theorem find?_eq_none_of_not_any (m : JMap) (k : Str)
    (h : m.any (fun kv => kv.1 = k) = false) :
    m.find? (fun kv => kv.1 = k) = none := by
  rw [List.find?_eq_none]
  intro kv hkv
  simp only [List.any_eq_false] at h
  simpa using h kv hkv

theorem objGet_objSet (m : JMap) (k : Str) (v : JVal) (s : Str) :
    objGet (objSet m k v) s = if s = k then some v else objGet m s := by
  by_cases hany : m.any (fun kv => kv.1 = k) = true
  · simp only [objSet, hany, if_true]
    by_cases hs : s = k
    · subst hs
      simp [objGet_map_subst_self m s v hany]
    · simp [hs, objGet_map_subst m k v s hs]
  · have hany2 : m.any (fun kv => kv.1 = k) = false := Bool.eq_false_iff.mpr hany
    simp only [objSet, hany2, Bool.false_eq_true, if_false, if_neg, not_false_eq_true]
    unfold objGet
    rw [List.find?_append]
    by_cases hs : s = k
    · subst hs
      rw [find?_eq_none_of_not_any m s hany2]
      simp
    · have hone : List.find? (fun kv => kv.1 = s) [(k, v)] = none := by
        have : ¬((k, v).1 = s) := fun h => hs h.symm
        simp [this]
      cases hfind : List.find? (fun kv => kv.1 = s) m with
      | none => simp [hone, hfind, hs]
      | some x => simp [hfind, hs]

theorem any_key_iff_mem_keys (m : JMap) (k : Str) :
    m.any (fun kv => kv.1 = k) = true ↔ k ∈ keysOf m := by
  simp [keysOf, List.any_eq_true]

theorem keysOf_objSet_of_mem (m : JMap) (k : Str) (v : JVal) (h : k ∈ keysOf m) :
    keysOf (objSet m k v) = keysOf m := by
  have hany := (any_key_iff_mem_keys m k).mpr h
  simp only [objSet, hany, if_true, keysOf, List.map_map]
  apply List.map_congr_left
  intro kv _
  by_cases hkv : kv.1 = k
  · simp [hkv, Function.comp]
  · simp [hkv, Function.comp]

theorem keysOf_objSet_of_not_mem (m : JMap) (k : Str) (v : JVal) (h : k ∉ keysOf m) :
    keysOf (objSet m k v) = keysOf m ++ [k] := by
  have hany : m.any (fun kv => kv.1 = k) = false :=
    Bool.eq_false_iff.mpr (fun hx => h ((any_key_iff_mem_keys m k).mp hx))
  simp [objSet, hany, keysOf]

theorem mem_keysOf_objSet (m : JMap) (k : Str) (v : JVal) (s : Str) :
    s ∈ keysOf (objSet m k v) ↔ s ∈ keysOf m ∨ s = k := by
  by_cases h : k ∈ keysOf m
  · rw [keysOf_objSet_of_mem m k v h]
    constructor
    · exact Or.inl
    · rintro (hs | rfl)
      · exact hs
      · exact h
  · rw [keysOf_objSet_of_not_mem m k v h]
    simp

theorem NoDupKeys_objSet (m : JMap) (k : Str) (v : JVal) (h : NoDupKeys m) :
    NoDupKeys (objSet m k v) := by
  by_cases hk : k ∈ keysOf m
  · unfold NoDupKeys
    rw [keysOf_objSet_of_mem m k v hk]
    exact h
  · unfold NoDupKeys
    rw [keysOf_objSet_of_not_mem m k v hk]
    rw [List.nodup_append]
    refine ⟨h, List.nodup_singleton k, ?_⟩
    intro a ha hb
    simp only [List.mem_singleton] at hb
    exact hk (hb ▸ ha)

theorem mem_objSet (m : JMap) (k : Str) (v : JVal) (kv : Str × JVal)
    (h : kv ∈ objSet m k v) : kv ∈ m ∨ kv = (k, v) := by
  by_cases hany : m.any (fun p => p.1 = k) = true
  · simp only [objSet, hany, if_true] at h
    rcases List.mem_map.mp h with ⟨p, hp, hpe⟩
    by_cases hpk : p.1 = k
    · simp only [hpk, if_true] at hpe
      exact Or.inr hpe.symm
    · simp only [hpk, if_false, if_neg, not_false_eq_true] at hpe
      exact Or.inl (hpe ▸ hp)
  · have hany2 : m.any (fun p => p.1 = k) = false := Bool.eq_false_iff.mpr hany
    simp only [objSet, hany2, Bool.false_eq_true, if_false, if_neg,
      not_false_eq_true] at h
    rcases List.mem_append.mp h with h1 | h1
    · exact Or.inl h1
    · simp only [List.mem_singleton] at h1
      exact Or.inr h1

theorem applyWrites_append (a b : List (Str × JVal)) (out : JMap) :
    applyWrites (a ++ b) out = applyWrites b (applyWrites a out) := by
  simp [applyWrites, List.foldl_append]

theorem objGet_applyWrites_of_not_key (ws : List (Str × JVal)) (out : JMap) (s : Str)
    (h : ∀ w ∈ ws, w.1 ≠ s) :
    objGet (applyWrites ws out) s = objGet out s := by
  induction ws generalizing out with
  | nil => rfl
  | cons w ws ih =>
    have hw : w.1 ≠ s := h w (List.mem_cons_self w ws)
    have hrest : ∀ w ∈ ws, w.1 ≠ s := fun x hx => h x (List.mem_cons_of_mem _ hx)
    show objGet (applyWrites ws (objSet out w.1 w.2)) s = objGet out s
    rw [ih (objSet out w.1 w.2) hrest, objGet_objSet]
    exact if_neg (fun hx => hw hx.symm)

theorem objGet_applyWrites_of_mem (ws : List (Str × JVal)) (out : JMap) (s : Str) (r : JVal)
    (hnd : (ws.map (fun w => w.1)).Nodup) (h : (s, r) ∈ ws) :
    objGet (applyWrites ws out) s = some r := by
  induction ws generalizing out with
  | nil => cases h
  | cons w ws ih =>
    rcases List.mem_cons.mp h with rfl | hmem
    · have hrest : ∀ x ∈ ws, x.1 ≠ s := by
        intro x hx
        simp only [List.map_cons, List.nodup_cons] at hnd
        intro he
        exact hnd.1 (he ▸ List.mem_map.mpr ⟨x, hx, rfl⟩)
      show objGet (applyWrites ws (objSet out s r)) s = some r
      rw [objGet_applyWrites_of_not_key ws _ s hrest, objGet_objSet]
      simp
    · simp only [List.map_cons, List.nodup_cons] at hnd
      exact ih (objSet out w.1 w.2) hnd.2 hmem

theorem mem_applyWrites (ws : List (Str × JVal)) (out : JMap) (kv : Str × JVal)
    (h : kv ∈ applyWrites ws out) : kv ∈ out ∨ kv ∈ ws := by
  induction ws generalizing out with
  | nil => exact Or.inl h
  | cons w ws ih =>
    rcases ih (objSet out w.1 w.2) h with h1 | h1
    · rcases mem_objSet out w.1 w.2 kv h1 with h2 | h2
      · exact Or.inl h2
      · exact Or.inr (h2 ▸ List.mem_cons_self w ws)
    · exact Or.inr (List.mem_cons_of_mem _ h1)

theorem mem_keysOf_applyWrites (ws : List (Str × JVal)) (out : JMap) (s : Str) :
    s ∈ keysOf (applyWrites ws out) ↔ s ∈ keysOf out ∨ s ∈ ws.map (fun w => w.1) := by
  induction ws generalizing out with
  | nil => simp [applyWrites]
  | cons w ws ih =>
    show s ∈ keysOf (applyWrites ws (objSet out w.1 w.2)) ↔ _
    rw [ih (objSet out w.1 w.2)]
    rw [mem_keysOf_objSet]
    simp only [List.map_cons, List.mem_cons]
    tauto

theorem NoDupKeys_applyWrites (ws : List (Str × JVal)) (out : JMap)
    (h : NoDupKeys out) : NoDupKeys (applyWrites ws out) := by
  induction ws generalizing out with
  | nil => exact h
  | cons w ws ih => exact ih (objSet out w.1 w.2) (NoDupKeys_objSet out w.1 w.2 h)

theorem personWrite_eq_applyWrites (key : Str) (fs : JObj) (out : JMap) :
    personWrite key fs out =
      applyWrites (writesOfEmit (key, jsMapKey key (.vobj fs), fs.toList)) out := by
  unfold personWrite writesOfEmit
  by_cases h : jsMapKey key (.vobj fs) = key
  · simp only [h, if_true, mkRecord, applyWrites, List.foldl_cons, List.foldl_nil]
  · simp only [h, if_false, if_neg, not_false_eq_true, mkRecord, applyWrites,
      List.foldl_cons, List.foldl_nil]

mutual
theorem flattenObj_eq_writes : ∀ (o : JObj) (out : JMap),
    flattenObj o out = applyWrites (writesObj o) out
  | .onil, out => by simp [flattenObj, writesObj, emitsObj, applyWrites]
  | .ocons key value rest, out => by
    have hrest := flattenObj_eq_writes rest
    cases value with
    | vnull =>
      simp [flattenObj, writesObj, emitsObj, hrest, List.flatMap]
    | vstr s =>
      simp [flattenObj, writesObj, emitsObj, hrest, List.flatMap]
    | varr es =>
      have harr := flattenArr_eq_writes 0 es
      simp only [flattenObj, writesObj, emitsObj, List.flatMap_append]
      rw [applyWrites_append, harr out, hrest]
      rfl
    | vobj fs =>
      by_cases hp : isPersonObject (.vobj fs) = true
      · simp only [flattenObj, writesObj, emitsObj, hp, if_true, List.flatMap_append]
        rw [applyWrites_append, hrest]
        rw [personWrite_eq_applyWrites key fs out]
        simp [writesObj]
      · have hfs := flattenObj_eq_writes fs
        simp only [flattenObj, writesObj, emitsObj, hp, Bool.false_eq_true, if_false,
          if_neg, not_false_eq_true, List.flatMap_append]
        rw [applyWrites_append, hfs out, hrest]
        rfl
theorem flattenArr_eq_writes : ∀ (i : Nat) (a : JArr) (out : JMap),
    flattenArr i a out = applyWrites (writesArr i a) out
  | _, .anil, out => by simp [flattenArr, writesArr, emitsArr, applyWrites]
  | i, .acons v rest, out => by
    have hrest := flattenArr_eq_writes (i + 1) rest
    cases v with
    | vnull =>
      simp [flattenArr, writesArr, emitsArr, hrest, List.flatMap]
    | vstr s =>
      simp [flattenArr, writesArr, emitsArr, hrest, List.flatMap]
    | varr es =>
      have harr := flattenArr_eq_writes 0 es
      simp only [flattenArr, writesArr, emitsArr, List.flatMap_append]
      rw [applyWrites_append, harr out, hrest]
      rfl
    | vobj fs =>
      by_cases hp : isPersonObject (.vobj fs) = true
      · simp only [flattenArr, writesArr, emitsArr, hp, if_true, List.flatMap_append]
        rw [applyWrites_append, hrest]
        rw [personWrite_eq_applyWrites (natToStr i) fs out]
        simp [writesArr]
      · have hfs := flattenObj_eq_writes fs
        simp only [flattenArr, writesArr, emitsArr, hp, Bool.false_eq_true, if_false,
          if_neg, not_false_eq_true, List.flatMap_append]
        rw [applyWrites_append, hfs out, hrest]
        rfl
end

theorem flattenEntries_eq_writes (v : JVal) (out : JMap) :
    flattenEntries v out = applyWrites (writesOf v) out := by
  cases v with
  | vnull => rfl
  | vstr s => rfl
  | varr a => exact flattenArr_eq_writes 0 a out
  | vobj o => exact flattenObj_eq_writes o out

theorem lastGet_cons (kv : Str × JVal) (l : JMap) (k : Str) :
    lastGet (kv :: l) k =
      match lastGet l k with
      | some v => some v
      | none => if kv.1 = k then some kv.2 else none := by
  unfold lastGet
  rw [List.reverse_cons, List.find?_append]
  cases hfind : List.find? (fun p => p.1 = k) l.reverse with
  | none =>
    by_cases hkv : kv.1 = k
    · simp [hkv, List.find?_cons]
    · simp [hkv, List.find?_cons]
  | some x => simp [hfind]

theorem objGet_cons_self (x : Str × JVal) (m : JMap) :
    objGet (x :: m) x.1 = some x.2 := by
  simp [objGet, List.find?_cons]

theorem objGet_cons_ne (x : Str × JVal) (m : JMap) (k : Str) (h : x.1 ≠ k) :
    objGet (x :: m) k = objGet m k := by
  simp only [objGet, List.find?_cons]
  simp [h]

theorem lastGet_eq_none_iff (l : JMap) (k : Str) :
    lastGet l k = none ↔ k ∉ keysOf l := by
  unfold lastGet keysOf
  rw [Option.map_eq_none', List.find?_eq_none]
  constructor
  · intro h hk
    rcases List.mem_map.mp hk with ⟨kv, hkv, rfl⟩
    exact absurd (by simp) (h kv (List.mem_reverse.mpr hkv))
  · intro h kv hkv
    simp only [decide_eq_true_eq]
    intro he
    exact h (List.mem_map.mpr ⟨kv, List.mem_reverse.mp hkv, he⟩)

theorem objGet_eq_none_iff (l : JMap) (k : Str) :
    objGet l k = none ↔ k ∉ keysOf l := by
  unfold objGet keysOf
  rw [Option.map_eq_none', List.find?_eq_none]
  constructor
  · intro h hk
    rcases List.mem_map.mp hk with ⟨kv, hkv, rfl⟩
    exact absurd (by simp) (h kv hkv)
  · intro h kv hkv
    simp only [decide_eq_true_eq]
    intro he
    exact h (List.mem_map.mpr ⟨kv, hkv, he⟩)

theorem objGet_foldl_objSet :
    ∀ (l : JMap) (m0 : JMap) (k : Str),
      objGet (l.foldl (fun m kv => objSet m kv.1 kv.2) m0) k =
        match lastGet l k with
        | some v => some v
        | none => objGet m0 k := by
  intro l
  induction l with
  | nil => intro m0 k; rfl
  | cons kv l ih =>
    intro m0 k
    rw [List.foldl_cons, ih (objSet m0 kv.1 kv.2) k, lastGet_cons, objGet_objSet]
    cases lastGet l k with
    | some v => rfl
    | none =>
      by_cases hkv : kv.1 = k
      · simp [hkv]
      · simp only [hkv, if_false, if_neg, not_false_eq_true]
        rw [if_neg (fun h => hkv h.symm)]

theorem mem_keysOf_foldl_objSet :
    ∀ (l : JMap) (m0 : JMap) (k : Str),
      k ∈ keysOf (l.foldl (fun m kv => objSet m kv.1 kv.2) m0) ↔
        k ∈ keysOf m0 ∨ k ∈ keysOf l := by
  intro l
  induction l with
  | nil => intro m0 k; simp [keysOf]
  | cons kv l ih =>
    intro m0 k
    rw [List.foldl_cons, ih (objSet m0 kv.1 kv.2) k, mem_keysOf_objSet]
    simp only [keysOf, List.map_cons, List.mem_cons]
    tauto

theorem NoDupKeys_foldl_objSet :
    ∀ (l : JMap) (m0 : JMap), NoDupKeys m0 →
      NoDupKeys (l.foldl (fun m kv => objSet m kv.1 kv.2) m0) := by
  intro l
  induction l with
  | nil => intro m0 h; exact h
  | cons kv l ih =>
    intro m0 h
    rw [List.foldl_cons]
    exact ih (objSet m0 kv.1 kv.2) (NoDupKeys_objSet m0 kv.1 kv.2 h)

theorem NoDupKeys_cons_split (x : Str × JVal) (m : JMap) (h : NoDupKeys (x :: m)) :
    x.1 ∉ keysOf m ∧ NoDupKeys m := by
  unfold NoDupKeys keysOf at h
  simp only [List.map_cons, List.nodup_cons] at h
  exact ⟨fun hx => h.1 hx, h.2⟩

theorem objGet_of_mem_nodup (m : JMap) (kv : Str × JVal)
    (hnd : NoDupKeys m) (h : kv ∈ m) : objGet m kv.1 = some kv.2 := by
  induction m with
  | nil => cases h
  | cons x m ih =>
    rcases List.mem_cons.mp h with rfl | hmem
    · exact objGet_cons_self kv m
    · have hsplit := NoDupKeys_cons_split x m hnd
      have hx : x.1 ≠ kv.1 := by
        intro he
        exact hsplit.1 (he ▸ List.mem_map.mpr ⟨kv, hmem, rfl⟩)
      rw [objGet_cons_ne x m kv.1 hx]
      exact ih hsplit.2 hmem

theorem objGet_eq_lastGet_of_nodup :
    ∀ (m : JMap), NoDupKeys m → ∀ k, objGet m k = lastGet m k := by
  intro m
  induction m with
  | nil => intro _ k; rfl
  | cons x m ih =>
    intro hnd k
    have hsplit := NoDupKeys_cons_split x m hnd
    rw [lastGet_cons]
    by_cases hk : x.1 = k
    · subst hk
      rw [(lastGet_eq_none_iff m x.1).mpr hsplit.1]
      simp [objGet_cons_self]
    · rw [objGet_cons_ne x m k hk, ih hsplit.2 k]
      cases lastGet m k with
      | some v => rfl
      | none => simp [hk]

theorem keysOf_baseRecord (key mapKey : Str) (l : JMap) :
    keysOf (baseRecord key mapKey l) = recordFieldNames := by
  rfl

theorem NoDupKeys_baseRecord (key mapKey : Str) (l : JMap) :
    NoDupKeys (baseRecord key mapKey l) := by
  unfold NoDupKeys
  rw [keysOf_baseRecord]
  decide

theorem NoDupKeys_mkRecordFields (key mapKey : Str) (l : JMap) :
    NoDupKeys (mkRecordFields key mapKey l) :=
  NoDupKeys_foldl_objSet l _ (NoDupKeys_baseRecord key mapKey l)

theorem mem_keysOf_mkRecordFields (key mapKey : Str) (l : JMap) (f : Str) :
    f ∈ keysOf (mkRecordFields key mapKey l) ↔
      f ∈ recordFieldNames ∨ f ∈ keysOf l := by
  unfold mkRecordFields
  rw [mem_keysOf_foldl_objSet, keysOf_baseRecord]

theorem objGet_mkRecordFields (key mapKey : Str) (l : JMap) (f : Str) :
    objGet (mkRecordFields key mapKey l) f =
      match lastGet l f with
      | some v => some v
      | none => objGet (baseRecord key mapKey l) f := by
  unfold mkRecordFields
  exact objGet_foldl_objSet l _ f

theorem objGet_mkRecordFields_id (key mapKey : Str) (l : JMap) :
    objGet (mkRecordFields key mapKey l) ("id".toList) =
      some ((lastGet l ("id".toList)).getD (.vstr mapKey)) := by
  rw [objGet_mkRecordFields]
  cases hlast : lastGet l ("id".toList) with
  | some v => rfl
  | none =>
    have hnone : objGet l ("id".toList) = none :=
      (objGet_eq_none_iff l _).mpr ((lastGet_eq_none_iff l _).mp hlast)
    have hbase : objGet (baseRecord key mapKey l) ("id".toList) =
        some (match objGet l ("id".toList) with
          | some i => if truthy i = true then i else .vstr mapKey
          | none => .vstr mapKey) := rfl
    rw [hbase, hnone]
    rfl

theorem objGet_mkRecordFields_name (key mapKey : Str) (l : JMap) :
    objGet (mkRecordFields key mapKey l) ("name".toList) =
      some ((lastGet l ("name".toList)).getD (.vstr (prettifyKey mapKey))) := by
  rw [objGet_mkRecordFields]
  cases hlast : lastGet l ("name".toList) with
  | some v => rfl
  | none =>
    have hnone : objGet l ("name".toList) = none :=
      (objGet_eq_none_iff l _).mpr ((lastGet_eq_none_iff l _).mp hlast)
    have hbase : objGet (baseRecord key mapKey l) ("name".toList) =
        some (match objGet l ("name".toList) with
          | some n => if truthy n = true then n else .vstr (prettifyKey mapKey)
          | none => .vstr (prettifyKey mapKey)) := rfl
    rw [hbase, hnone]
    rfl

theorem objGet_mkRecordFields_bio (key mapKey : Str) (l : JMap) :
    objGet (mkRecordFields key mapKey l) ("bio".toList) =
      some ((lastGet l ("bio".toList)).getD (.vstr [])) := by
  rw [objGet_mkRecordFields]
  cases hlast : lastGet l ("bio".toList) with
  | some v => rfl
  | none =>
    have hnone : objGet l ("bio".toList) = none :=
      (objGet_eq_none_iff l _).mpr ((lastGet_eq_none_iff l _).mp hlast)
    have hbase : objGet (baseRecord key mapKey l) ("bio".toList) =
        some (jsOrEmpty (objGet l ("bio".toList))) := rfl
    rw [hbase, hnone]
    rfl

theorem objGet_mkRecordFields_scripture (key mapKey : Str) (l : JMap) :
    objGet (mkRecordFields key mapKey l) ("scripture".toList) =
      some ((lastGet l ("scripture".toList)).getD (.vstr [])) := by
  rw [objGet_mkRecordFields]
  cases hlast : lastGet l ("scripture".toList) with
  | some v => rfl
  | none =>
    have hnone : objGet l ("scripture".toList) = none :=
      (objGet_eq_none_iff l _).mpr ((lastGet_eq_none_iff l _).mp hlast)
    have hbase : objGet (baseRecord key mapKey l) ("scripture".toList) =
        some (jsOrEmpty (objGet l ("scripture".toList))) := rfl
    rw [hbase, hnone]
    rfl

theorem objGet_mkRecordFields_descendants (key mapKey : Str) (l : JMap) :
    objGet (mkRecordFields key mapKey l) ("descendants".toList) =
      some ((lastGet l ("descendants".toList)).getD (.varr .anil)) := by
  rw [objGet_mkRecordFields]
  cases hlast : lastGet l ("descendants".toList) with
  | some v => rfl
  | none =>
    have hnone : objGet l ("descendants".toList) = none :=
      (objGet_eq_none_iff l _).mpr ((lastGet_eq_none_iff l _).mp hlast)
    have hbase : objGet (baseRecord key mapKey l) ("descendants".toList) =
        some (match objGet l ("descendants".toList) with
          | some (.varr es) => .varr es
          | _ => .varr .anil) := rfl
    rw [hbase, hnone]
    rfl

theorem objGet_mkRecordFields_sourceKey (key mapKey : Str) (l : JMap) :
    objGet (mkRecordFields key mapKey l) ("__sourceKey".toList) =
      some ((lastGet l ("__sourceKey".toList)).getD (.vstr key)) := by
  rw [objGet_mkRecordFields]
  cases hlast : lastGet l ("__sourceKey".toList) with
  | some v => rfl
  | none => rfl

theorem objGet_mkRecordFields_other (key mapKey : Str) (l : JMap) (f : Str)
    (hf : f ∉ recordFieldNames) :
    objGet (mkRecordFields key mapKey l) f = lastGet l f := by
  rw [objGet_mkRecordFields]
  have hbase : objGet (baseRecord key mapKey l) f = none := by
    rw [objGet_eq_none_iff, keysOf_baseRecord]
    exact hf
  cases lastGet l f with
  | some v => rfl
  | none => exact hbase

theorem toList_objOfList : ∀ l : List (Str × JVal), (objOfList l).toList = l := by
  intro l
  induction l with
  | nil => rfl
  | cons kv l ih => simp [objOfList, JObj.toList, ih]

theorem fieldsOf_mkRecord (key mapKey : Str) (l : JMap) :
    fieldsOf (mkRecord key mapKey l) = mkRecordFields key mapKey l := by
  simp [mkRecord, fieldsOf, toList_objOfList]

theorem isPersonObject_mkRecord (key mapKey : Str) (l : JMap) :
    isPersonObject (mkRecord key mapKey l) = true := by
  have hid : ("descendants".toList) ∈ keysOf (mkRecordFields key mapKey l) := by
    rw [mem_keysOf_mkRecordFields]
    left
    simp [recordFieldNames]
  have hany := (any_key_iff_mem_keys (mkRecordFields key mapKey l) _).mpr hid
  simp only [mkRecord, isPersonObject, toList_objOfList]
  rw [hany]
  simp

mutual
theorem emitsObj_shape : ∀ (o : JObj), ∀ e ∈ emitsObj o, e.2.1 = jsMapKeyF e.1 e.2.2
  | .onil => by simp [emitsObj]
  | .ocons key value rest => by
    intro e he
    have hrest := emitsObj_shape rest
    cases value with
    | vnull =>
      simp only [emitsObj, List.nil_append] at he
      exact hrest e he
    | vstr str =>
      simp only [emitsObj, List.nil_append] at he
      exact hrest e he
    | varr es =>
      rcases List.mem_append.mp (by simpa [emitsObj] using he) with h1 | h1
      · exact emitsArr_shape 0 es e h1
      · exact hrest e h1
    | vobj fs =>
      by_cases hp : isPersonObject (.vobj fs) = true
      · rcases (by simpa [emitsObj, hp] using he :
            e = (key, jsMapKey key (JVal.vobj fs), fs.toList) ∨ e ∈ emitsObj rest) with rfl | h1
        · rfl
        · exact hrest e h1
      · rcases List.mem_append.mp (by simpa [emitsObj, hp] using he) with h1 | h1
        · exact emitsObj_shape fs e h1
        · exact hrest e h1
theorem emitsArr_shape : ∀ (i : Nat) (a : JArr), ∀ e ∈ emitsArr i a,
    e.2.1 = jsMapKeyF e.1 e.2.2
  | _, .anil => by simp [emitsArr]
  | i, .acons v rest => by
    intro e he
    have hrest := emitsArr_shape (i + 1) rest
    cases v with
    | vnull =>
      simp only [emitsArr, List.nil_append] at he
      exact hrest e he
    | vstr str =>
      simp only [emitsArr, List.nil_append] at he
      exact hrest e he
    | varr es =>
      rcases List.mem_append.mp (by simpa [emitsArr] using he) with h1 | h1
      · exact emitsArr_shape 0 es e h1
      · exact hrest e h1
    | vobj fs =>
      by_cases hp : isPersonObject (.vobj fs) = true
      · rcases (by simpa [emitsArr, hp] using he :
            e = (natToStr i, jsMapKey (natToStr i) (JVal.vobj fs), fs.toList) ∨
              e ∈ emitsArr (i + 1) rest) with rfl | h1
        · rfl
        · exact hrest e h1
      · rcases List.mem_append.mp (by simpa [emitsArr, hp] using he) with h1 | h1
        · exact emitsObj_shape fs e h1
        · exact hrest e h1
end

theorem emitsOf_shape (v : JVal) : ∀ e ∈ emitsOf v, e.2.1 = jsMapKeyF e.1 e.2.2 := by
  cases v with
  | vnull => simp [emitsOf]
  | vstr s => simp [emitsOf]
  | varr a => exact emitsArr_shape 0 a
  | vobj o => exact emitsObj_shape o

theorem mem_writesOf (v : JVal) (s : Str) (r : JVal)
    (h : (s, r) ∈ writesOf v) :
    ∃ e ∈ emitsOf v, r = mkRecord e.1 e.2.1 e.2.2 ∧ (s = e.2.1 ∨ s = e.1) := by
  unfold writesOf at h
  rcases List.mem_flatMap.mp h with ⟨e, he, hw⟩
  refine ⟨e, he, ?_⟩
  unfold writesOfEmit at hw
  by_cases hk : e.2.1 = e.1
  · rw [if_pos hk] at hw
    have h2 := List.mem_singleton.mp hw
    exact ⟨(Prod.ext_iff.mp h2).2, Or.inl (Prod.ext_iff.mp h2).1⟩
  · rw [if_neg hk] at hw
    rcases List.mem_cons.mp hw with h2 | h2
    · exact ⟨(Prod.ext_iff.mp h2).2, Or.inl (Prod.ext_iff.mp h2).1⟩
    · have h3 := List.mem_singleton.mp h2
      exact ⟨(Prod.ext_iff.mp h3).2, Or.inr (Prod.ext_iff.mp h3).1⟩

theorem writesOf_of_emit (v : JVal) (e : Str × Str × JMap) (he : e ∈ emitsOf v) :
    (e.2.1, mkRecord e.1 e.2.1 e.2.2) ∈ writesOf v ∧
    (e.2.1 ≠ e.1 → (e.1, mkRecord e.1 e.2.1 e.2.2) ∈ writesOf v) := by
  unfold writesOf
  constructor
  · refine List.mem_flatMap.mpr ⟨e, he, ?_⟩
    unfold writesOfEmit
    by_cases hk : e.2.1 = e.1
    · simp [hk]
    · simp [hk]
  · intro hk
    refine List.mem_flatMap.mpr ⟨e, he, ?_⟩
    unfold writesOfEmit
    simp [hk]

/-- Claim C2 (counterexample): on the input `{k: {bio: null}}` the emitted
record's `bio` is `null`, not the empty string: the spread `...value` comes
last in the record literal, so a present-but-null `bio` overwrites the
defaulted empty string.  The claim's "never null or undefined" fails. -/
theorem C2_normalizer_defaults_cex :
    (objGet (flattenEntries rawNullBio []) ("k".toList)).map
        (fun r => objGet (fieldsOf r) ("bio".toList))
      = some (some .vnull) ∧
    JVal.vnull ≠ JVal.vstr [] := by
  constructor
  · decide
  · intro h
    cases h

/-- Claim C2 (amended): every record `flattenEntries` emits comes from some
person entry (structural key, map key, raw field list) and its fields obey:
`bio` and `scripture` equal the empty string when absent from the source but
are passed through verbatim when present (the trailing spread overwrites the
defaults, so an explicit `null` survives); `name` defaults to the prettified
**map key** (the stringified id when truthy, else the structural key) when
absent; `descendants` equals the empty sequence when absent, and when present
it is the source's own `descendants` value unchanged — the spread overwrites
the defensive `slice()` copy, so the record keeps (aliases) the source array;
`id` defaults to the map key; `__sourceKey` records the structural key.
(`lastGet` is plain property lookup on JSON objects, whose keys are unique.) -/
theorem C2_normalizer_defaults_amended :
    ∀ (raw : JVal) (k : Str) (r : JVal), (k, r) ∈ flattenEntries raw [] →
      ∃ e ∈ emitsOf raw,
        r = mkRecord e.1 e.2.1 e.2.2 ∧
        e.2.1 = jsMapKeyF e.1 e.2.2 ∧
        objGet (fieldsOf r) ("bio".toList) =
          some ((lastGet e.2.2 ("bio".toList)).getD (.vstr [])) ∧
        objGet (fieldsOf r) ("scripture".toList) =
          some ((lastGet e.2.2 ("scripture".toList)).getD (.vstr [])) ∧
        objGet (fieldsOf r) ("name".toList) =
          some ((lastGet e.2.2 ("name".toList)).getD (.vstr (prettifyKey e.2.1))) ∧
        objGet (fieldsOf r) ("descendants".toList) =
          some ((lastGet e.2.2 ("descendants".toList)).getD (.varr .anil)) ∧
        objGet (fieldsOf r) ("id".toList) =
          some ((lastGet e.2.2 ("id".toList)).getD (.vstr e.2.1)) ∧
        objGet (fieldsOf r) ("__sourceKey".toList) =
          some ((lastGet e.2.2 ("__sourceKey".toList)).getD (.vstr e.1)) := by
  intro raw k r hmem
  rw [flattenEntries_eq_writes] at hmem
  rcases mem_applyWrites (writesOf raw) [] (k, r) hmem with h | h
  · cases h
  · rcases mem_writesOf raw k r h with ⟨e, he, hrec, _⟩
    refine ⟨e, he, hrec, emitsOf_shape raw e he, ?_⟩
    subst hrec
    rw [fieldsOf_mkRecord]
    exact ⟨objGet_mkRecordFields_bio e.1 e.2.1 e.2.2,
           objGet_mkRecordFields_scripture e.1 e.2.1 e.2.2,
           objGet_mkRecordFields_name e.1 e.2.1 e.2.2,
           objGet_mkRecordFields_descendants e.1 e.2.1 e.2.2,
           objGet_mkRecordFields_id e.1 e.2.1 e.2.2,
           objGet_mkRecordFields_sourceKey e.1 e.2.1 e.2.2⟩

/-- Witness for C2 (amended): the record the input
`{first_man: {id: adam, bio: made}}` stores under the key `adam`: its `bio`
passes through, its `name` is the prettified map key `Adam` (from the id,
not the structural key `first_man`), its `descendants` default to empty. -/
theorem C2_normalizer_defaults_witness :
    ∃ e ∈ emitsOf rawDual,
      JVal.vobj (objOfList
        [("id".toList, .vstr ("adam".toList)), ("name".toList, .vstr ("Adam".toList)),
         ("bio".toList, .vstr ("made".toList)), ("scripture".toList, .vstr []),
         ("descendants".toList, .varr .anil),
         ("__sourceKey".toList, .vstr ("first_man".toList))]) = mkRecord e.1 e.2.1 e.2.2 ∧
      e.2.1 = jsMapKeyF e.1 e.2.2 ∧
      objGet (fieldsOf (JVal.vobj (objOfList
        [("id".toList, .vstr ("adam".toList)), ("name".toList, .vstr ("Adam".toList)),
         ("bio".toList, .vstr ("made".toList)), ("scripture".toList, .vstr []),
         ("descendants".toList, .varr .anil),
         ("__sourceKey".toList, .vstr ("first_man".toList))]))) ("bio".toList) =
        some ((lastGet e.2.2 ("bio".toList)).getD (.vstr [])) ∧
      objGet (fieldsOf (JVal.vobj (objOfList
        [("id".toList, .vstr ("adam".toList)), ("name".toList, .vstr ("Adam".toList)),
         ("bio".toList, .vstr ("made".toList)), ("scripture".toList, .vstr []),
         ("descendants".toList, .varr .anil),
         ("__sourceKey".toList, .vstr ("first_man".toList))]))) ("scripture".toList) =
        some ((lastGet e.2.2 ("scripture".toList)).getD (.vstr [])) ∧
      objGet (fieldsOf (JVal.vobj (objOfList
        [("id".toList, .vstr ("adam".toList)), ("name".toList, .vstr ("Adam".toList)),
         ("bio".toList, .vstr ("made".toList)), ("scripture".toList, .vstr []),
         ("descendants".toList, .varr .anil),
         ("__sourceKey".toList, .vstr ("first_man".toList))]))) ("name".toList) =
        some ((lastGet e.2.2 ("name".toList)).getD (.vstr (prettifyKey e.2.1))) ∧
      objGet (fieldsOf (JVal.vobj (objOfList
        [("id".toList, .vstr ("adam".toList)), ("name".toList, .vstr ("Adam".toList)),
         ("bio".toList, .vstr ("made".toList)), ("scripture".toList, .vstr []),
         ("descendants".toList, .varr .anil),
         ("__sourceKey".toList, .vstr ("first_man".toList))]))) ("descendants".toList) =
        some ((lastGet e.2.2 ("descendants".toList)).getD (.varr .anil)) ∧
      objGet (fieldsOf (JVal.vobj (objOfList
        [("id".toList, .vstr ("adam".toList)), ("name".toList, .vstr ("Adam".toList)),
         ("bio".toList, .vstr ("made".toList)), ("scripture".toList, .vstr []),
         ("descendants".toList, .varr .anil),
         ("__sourceKey".toList, .vstr ("first_man".toList))]))) ("id".toList) =
        some ((lastGet e.2.2 ("id".toList)).getD (.vstr e.2.1)) ∧
      objGet (fieldsOf (JVal.vobj (objOfList
        [("id".toList, .vstr ("adam".toList)), ("name".toList, .vstr ("Adam".toList)),
         ("bio".toList, .vstr ("made".toList)), ("scripture".toList, .vstr []),
         ("descendants".toList, .varr .anil),
         ("__sourceKey".toList, .vstr ("first_man".toList))]))) ("__sourceKey".toList) =
        some ((lastGet e.2.2 ("__sourceKey".toList)).getD (.vstr e.1)) :=
  C2_normalizer_defaults_amended rawDual ("adam".toList) _ (by decide)

/-- Claim C7 (counterexample): on `{a: {id: b, bio: A}, b: {bio: B}}` the
entry at structural key `a` emits a record whose id is `b`, but the later
entry at structural key `b` overwrites the `b` slot: looking up the
structural key `a` and the id `b` yields two **different** records (bios `A`
vs `B`), so dual-key addressability fails for that emitted entry. -/
theorem C7_dual_key_cex :
    (objGet (flattenEntries rawClash []) ("a".toList)).map
        (fun r => objGet (fieldsOf r) ("id".toList)) = some (some (.vstr ("b".toList))) ∧
    (objGet (flattenEntries rawClash []) ("a".toList)).map
        (fun r => objGet (fieldsOf r) ("bio".toList)) = some (some (.vstr ("A".toList))) ∧
    (objGet (flattenEntries rawClash []) ("b".toList)).map
        (fun r => objGet (fieldsOf r) ("bio".toList)) = some (some (.vstr ("B".toList))) ∧
    objGet (flattenEntries rawClash []) ("a".toList) ≠
      objGet (flattenEntries rawClash []) ("b".toList) := by decide

/-- Claim C7 (amended): when no two of the normalizer's map writes target the
same slot (no key/id collisions anywhere in the input), every emitted entry
whose map key — the stringified truthy id — differs from its structural key
is resolvable under **both** keys to the identical record.  (The non-empty
truthy id is what makes the map key differ from the structural key; an
entry with a falsy or empty-string id gets no dual write at all.) -/
theorem C7_dual_key_amended :
    ∀ (raw : JVal), ((writesOf raw).map (fun w => w.1)).Nodup →
      ∀ e ∈ emitsOf raw, e.2.1 ≠ e.1 →
        objGet (flattenEntries raw []) e.1 = some (mkRecord e.1 e.2.1 e.2.2) ∧
        objGet (flattenEntries raw []) e.2.1 = some (mkRecord e.1 e.2.1 e.2.2) ∧
        e.2.1 = jsMapKeyF e.1 e.2.2 := by
  intro raw hnd e he hne
  have hw := writesOf_of_emit raw e he
  rw [flattenEntries_eq_writes]
  exact ⟨objGet_applyWrites_of_mem (writesOf raw) [] e.1 _ hnd (hw.2 hne),
         objGet_applyWrites_of_mem (writesOf raw) [] e.2.1 _ hnd hw.1,
         emitsOf_shape raw e he⟩

/-- Witness for C7 (amended): `{first_man: {id: adam, bio: made}}` has
collision-free writes, and its one emitted entry (structural key
`first_man`, map key `adam`) resolves to the identical record under both
keys. -/
theorem C7_dual_key_witness :
    objGet (flattenEntries rawDual []) ("first_man".toList) =
      some (mkRecord ("first_man".toList) ("adam".toList)
        [("id".toList, .vstr ("adam".toList)), ("bio".toList, .vstr ("made".toList))]) ∧
    objGet (flattenEntries rawDual []) ("adam".toList) =
      some (mkRecord ("first_man".toList) ("adam".toList)
        [("id".toList, .vstr ("adam".toList)), ("bio".toList, .vstr ("made".toList))]) ∧
    ("adam".toList) = jsMapKeyF ("first_man".toList)
      [("id".toList, .vstr ("adam".toList)), ("bio".toList, .vstr ("made".toList))] :=
  C7_dual_key_amended rawDual (by decide)
    (("first_man".toList, "adam".toList,
      [("id".toList, .vstr ("adam".toList)), ("bio".toList, .vstr ("made".toList))]))
    (by decide) (by decide)

theorem objGet_isSome_mem (m : JMap) (s : Str) (x : JVal) (h : objGet m s = some x) :
    s ∈ keysOf m := by
  by_contra hn
  rw [(objGet_eq_none_iff m s).mpr hn] at h
  cases h

theorem mkRecordFields_self_ext (k2 mk2 : Str) (rf : JMap)
    (hnd : NoDupKeys rf) (hsix : ∀ f ∈ recordFieldNames, f ∈ keysOf rf) :
    ∀ f, objGet (mkRecordFields k2 mk2 rf) f = objGet rf f := by
  intro f
  rw [objGet_mkRecordFields, ← objGet_eq_lastGet_of_nodup rf hnd f]
  cases h : objGet rf f with
  | some v => rfl
  | none =>
    have hf : f ∉ keysOf rf := (objGet_eq_none_iff rf f).mp h
    have hfsix : f ∉ recordFieldNames := fun hx => hf (hsix f hx)
    exact (objGet_eq_none_iff _ f).mpr (by rw [keysOf_baseRecord]; exact hfsix)

theorem recExt_mkRecord_self (k2 : Str) (key mapKey : Str) (lv : JMap) :
    ∀ f, objGet (fieldsOf (mkRecord k2
        (jsMapKeyF k2 (mkRecordFields key mapKey lv)) (mkRecordFields key mapKey lv))) f =
      objGet (mkRecordFields key mapKey lv) f := by
  intro f
  rw [fieldsOf_mkRecord]
  exact mkRecordFields_self_ext k2 _ (mkRecordFields key mapKey lv)
    (NoDupKeys_mkRecordFields key mapKey lv)
    (fun g hg => (mem_keysOf_mkRecordFields key mapKey lv g).mpr (Or.inl hg)) f

theorem pass2_walk (m1 : JMap) (hIC : idConsistent m1) (hND : NoDupKeys m1)
    (hRec : ∀ kv ∈ m1, ∃ key mk lv, kv.2 = mkRecord key mk lv) :
    ∀ (l : List (Str × JVal)) (out : JMap),
      (∀ kv ∈ l, kv ∈ m1) →
      (∀ s, s ∈ keysOf out → s ∈ keysOf m1 ∧ optRecExt (objGet out s) (objGet m1 s)) →
      (∀ s, s ∈ keysOf out → s ∈ keysOf (flattenObj (objOfList l) out)) ∧
      (∀ kv ∈ l, kv.1 ∈ keysOf (flattenObj (objOfList l) out)) ∧
      (∀ s, s ∈ keysOf (flattenObj (objOfList l) out) →
        s ∈ keysOf m1 ∧ optRecExt (objGet (flattenObj (objOfList l) out) s) (objGet m1 s)) := by
  intro l
  induction l with
  | nil =>
    intro out _ hout
    refine ⟨fun s hs => ?_, fun kv hkv => (List.not_mem_nil kv hkv).elim, fun s hs => ?_⟩
    · simpa [objOfList, flattenObj] using hs
    · exact hout s (by simpa [objOfList, flattenObj] using hs)
  | cons kv l ih =>
    intro out hl hout
    obtain ⟨k, r⟩ := kv
    have hkr : (k, r) ∈ m1 := hl (k, r) (List.mem_cons_self _ _)
    obtain ⟨key, mk, lv, hr⟩ := hRec (k, r) hkr
    -- unfold one step of the walk: the stored record is person-shaped
    have hrv : r = JVal.vobj (objOfList (mkRecordFields key mk lv)) := hr
    have hp : isPersonObject (JVal.vobj (objOfList (mkRecordFields key mk lv))) = true :=
      isPersonObject_mkRecord key mk lv
    have hstep : flattenObj (objOfList ((k, r) :: l)) out =
        flattenObj (objOfList l)
          (personWrite k (objOfList (mkRecordFields key mk lv)) out) := by
      rw [hrv]
      simp [objOfList, flattenObj, hp]
    -- name the pieces of the person write
    set rf := mkRecordFields key mk lv with hrf
    set mk2 := jsMapKeyF k rf with hmk2def
    set r2 := mkRecord k mk2 rf with hr2
    have htl : (objOfList rf).toList = rf := toList_objOfList rf
    have hpw : personWrite k (objOfList rf) out =
        if mk2 = k then objSet out mk2 r2
        else objSet (objSet out mk2 r2) k r2 := by
      unfold personWrite
      simp only [jsMapKey, fieldsOf, htl]
    -- the id slot of the stored record resolves to it (id-consistency)
    have hidslot : objGet m1 mk2 = some r := by
      have := hIC (k, r) hkr
      simpa [jsMapKey, hrv, fieldsOf, htl] using this
    have hkslot : objGet m1 k = some r := objGet_of_mem_nodup m1 (k, r) hND hkr
    have hkin : k ∈ keysOf m1 := List.mem_map.mpr ⟨(k, r), hkr, rfl⟩
    have hmk2in : mk2 ∈ keysOf m1 := objGet_isSome_mem m1 mk2 r hidslot
    -- the rewritten record reads the same as the stored one
    have hext : ∀ f, objGet (fieldsOf r2) f = objGet (fieldsOf r) f := by
      intro f
      rw [hrv]
      simpa [fieldsOf, htl] using recExt_mkRecord_self k key mk lv f
    -- the invariant survives the write
    have hout2 : ∀ s, s ∈ keysOf (personWrite k (objOfList rf) out) →
        s ∈ keysOf m1 ∧
        optRecExt (objGet (personWrite k (objOfList rf) out) s) (objGet m1 s) := by
      intro s hs
      rw [hpw] at hs ⊢
      by_cases hq : mk2 = k
      · rw [if_pos hq] at hs ⊢
        rw [mem_keysOf_objSet] at hs
        rw [objGet_objSet]
        rcases hs with hs | rfl
        · by_cases hsm : s = mk2
          · subst hsm
            rw [if_pos rfl, hidslot]
            exact ⟨hmk2in, hext⟩
          · rw [if_neg hsm]
            exact hout s hs
        · rw [if_pos rfl, hidslot]
          exact ⟨hmk2in, hext⟩
      · rw [if_neg hq] at hs ⊢
        rw [mem_keysOf_objSet, mem_keysOf_objSet] at hs
        rw [objGet_objSet]
        by_cases hsk : s = k
        · subst hsk
          rw [if_pos rfl, hkslot]
          exact ⟨hkin, hext⟩
        · rw [if_neg hsk, objGet_objSet]
          by_cases hsm : s = mk2
          · subst hsm
            rw [if_pos rfl, hidslot]
            exact ⟨hmk2in, hext⟩
          · rw [if_neg hsm]
            rcases hs with (hs | rfl) | rfl
            · exact hout s hs
            · exact absurd rfl hsm
            · exact absurd rfl hsk
    -- the written keys are present after the write
    have hkeys2 : ∀ s, (s ∈ keysOf out ∨ s = k ∨ s = mk2) →
        s ∈ keysOf (personWrite k (objOfList rf) out) := by
      intro s hs
      rw [hpw]
      by_cases hq : mk2 = k
      · rw [if_pos hq, mem_keysOf_objSet]
        rcases hs with hs | rfl | rfl
        · exact Or.inl hs
        · exact Or.inr hq.symm
        · exact Or.inr rfl
      · rw [if_neg hq, mem_keysOf_objSet, mem_keysOf_objSet]
        rcases hs with hs | rfl | rfl
        · exact Or.inl (Or.inl hs)
        · exact Or.inr rfl
        · exact Or.inl (Or.inr rfl)
    have hl2 : ∀ kv ∈ l, kv ∈ m1 := fun x hx => hl x (List.mem_cons_of_mem _ hx)
    have hrec := ih (personWrite k (objOfList rf) out) hl2 hout2
    rw [hstep]
    refine ⟨fun s hs => hrec.1 s (hkeys2 s (Or.inl hs)), ?_, hrec.2.2⟩
    intro x hx
    rcases List.mem_cons.mp hx with rfl | hx
    · exact hrec.1 k (hkeys2 k (Or.inr (Or.inl rfl)))
    · exact hrec.2.1 x hx

theorem flattenEntries_records_shape (raw : JVal) :
    ∀ kv ∈ flattenEntries raw [], ∃ key mk lv, (kv : Str × JVal).2 = mkRecord key mk lv := by
  intro kv hkv
  rw [flattenEntries_eq_writes] at hkv
  rcases mem_applyWrites (writesOf raw) [] kv hkv with h | h
  · cases h
  · obtain ⟨s, r⟩ := kv
    rcases mem_writesOf raw s r h with ⟨e, _, hrec, _⟩
    exact ⟨e.1, e.2.1, e.2.2, hrec⟩

theorem flattenEntries_NoDupKeys (raw : JVal) : NoDupKeys (flattenEntries raw []) := by
  rw [flattenEntries_eq_writes]
  exact NoDupKeys_applyWrites (writesOf raw) [] (by simp [NoDupKeys, keysOf])

/-- Claim C8 (counterexample): normalizing `{a: {id: b, bio: A}, b: {bio: B}}`
stores the record with bio `B` under the id `b`; running `flattenEntries`
again on that output lets the entry stored under key `a` (whose id is `b`)
overwrite the `b` slot, so the renormalized map holds a **different** record
(bio `A`) for the id `b` — the maps are not equivalent. -/
theorem C8_idempotence_cex :
    (objGet (flattenEntries (.vobj (objOfList (flattenEntries rawClash []))) [])
        ("b".toList)).map (fun r => objGet (fieldsOf r) ("bio".toList))
      = some (some (.vstr ("A".toList))) ∧
    (objGet (flattenEntries rawClash []) ("b".toList)).map
        (fun r => objGet (fieldsOf r) ("bio".toList))
      = some (some (.vstr ("B".toList))) ∧
    JVal.vstr ("A".toList) ≠ JVal.vstr ("B".toList) := by decide

/-- Claim C8 (amended): `flattenEntries` is idempotent up to id-consistency:
whenever the normalized map is id-consistent (every stored record is also
what its own recomputed map key looks up — no entry has had its id slot
overwritten by a colliding later entry), renormalizing it yields an
equivalent map: the same keys resolve, and each key resolves to a record
with the same value at every field (`optRecExt`).  Without id-consistency a
later entry can overwrite an earlier entry's id slot, as the counterexample
shows. -/
theorem C8_idempotence_amended :
    ∀ raw : JVal, idConsistent (flattenEntries raw []) →
      ∀ s : Str,
        optRecExt
          (objGet (flattenEntries (.vobj (objOfList (flattenEntries raw []))) []) s)
          (objGet (flattenEntries raw []) s) := by
  intro raw hIC s
  have hwalk := pass2_walk (flattenEntries raw []) hIC (flattenEntries_NoDupKeys raw)
    (flattenEntries_records_shape raw) (flattenEntries raw []) []
    (fun kv hkv => hkv) (fun t ht => by simp [keysOf] at ht)
  have hm2 : flattenEntries (.vobj (objOfList (flattenEntries raw []))) [] =
      flattenObj (objOfList (flattenEntries raw [])) [] := rfl
  rw [hm2]
  by_cases hs : s ∈ keysOf (flattenObj (objOfList (flattenEntries raw [])) [])
  · exact (hwalk.2.2 s hs).2
  · have h2 : objGet (flattenObj (objOfList (flattenEntries raw [])) []) s = none :=
      (objGet_eq_none_iff _ s).mpr hs
    have h1 : objGet (flattenEntries raw []) s = none := by
      rw [objGet_eq_none_iff]
      intro hin
      rcases List.mem_map.mp hin with ⟨kv, hkv, rfl⟩
      exact hs (hwalk.2.1 kv hkv)
    rw [h1, h2]
    trivial

/-- Witness for C8 (amended): the normalized map of
`{first_man: {id: adam, bio: made}}` is id-consistent (its one record sits
under both its key and its id), and renormalizing resolves the key `adam`
to a field-for-field equal record. -/
theorem C8_idempotence_witness :
    optRecExt
      (objGet (flattenEntries (.vobj (objOfList (flattenEntries rawDual []))) [])
        ("adam".toList))
      (objGet (flattenEntries rawDual []) ("adam".toList)) :=
  C8_idempotence_amended rawDual (by unfold idConsistent; decide) ("adam".toList)
